import Mathlib

/-!
# TS-Collections traversal engine: shallow embedding and verification

This file embeds the traversal engines of the TS-Collections repository
(`TreeNode.ts`, `GraphNode.ts`, `Heap.ts`, together with the `Queue`, `Stack`
and lazy `filter`/`map` adapters they rely on) as executable Lean definitions
and settles the specification claims against them.

Modelling conventions, shared by all machines below:

* Tree/graph nodes are natural numbers; distinct numbers model distinct
  JavaScript objects (JS `Set` membership is reference identity).
* A caller-supplied expansion function (`getChildren` / `getAdjacentNodes`)
  becomes `conns : Nat → Option (List Nat)`; `none` models a `null`/`undefined`
  return and the list models the iterable (entries are non-absent nodes).
* A JS `Set` becomes a `List Nat` with idempotent `List.insert`
  (insertion order is irrelevant to the code, only membership is used).
* JS iterators are stateful cursors; each one is modelled by the list of its
  remaining elements, consuming from the head.  The lazy `filter` adapter
  (Collections.ts `FilteredIterator.next`: pull the source until the predicate
  holds) becomes a `dropWhile` against the *current* visited set at pull time.
* Loops whose iteration count the TS code does not bound syntactically take a
  fuel argument; running out of fuel sets a `stuck` flag and the run stops
  without reporting done.  Every positive theorem below is proved on runs that
  finish unstuck, where the fueled function coincides with the TS loop.
-/

namespace TSCollections

/-- `NodeWithMetadata` from TreeNode.ts/GraphNode.ts: the yielded node together
with its ancestors (root first).  `node` is an `Option` because the engines
yield `this.currentNode!`, which is `undefined` on paths the code never
exercises; `parent` and `depth` are the class getters. -/
structure NodeWithMetadata where
  node : Option Nat
  ancestors : List Nat
deriving Repr, DecidableEq

/-- The `depth` getter: `return this.ancestors.length`. -/
def NodeWithMetadata.depth (m : NodeWithMetadata) : Nat := m.ancestors.length

/-- The `parent` getter: last ancestor, or `undefined` when there are none. -/
def NodeWithMetadata.parent (m : NodeWithMetadata) : Option Nat := m.ancestors.getLast?

/-!
## The shared depth-first engine (`DepthFirstIterator`)

State of `DepthFirstIterator` (TreeNode.ts lines 788-871, GraphNode.ts lines
702-811): a stack of child iterators, the parallel stack of current nodes, the
ancestors array, the finished flag, and (graph mode) the visited set.  A stack
entry's `Bool` records whether it came from the expansion function (graph mode
filters those lazily); the seed entry `[root]` is unfiltered.  `maxDepth` is
`Option Nat`, `none` standing for the TS default `Number.MAX_VALUE`.
`calls` instruments the machine with the log of nodes whose expansion function
was invoked (the TS tests count these via `numberOfGetChildrenCalls`).
`stuck` is a modelling artifact: set only when a loop's fuel runs out. -/
structure DFSState where
  finished : Bool
  stack : List (Bool × List Nat)
  current : List Nat
  ancestors : List Nat
  visited : List Nat
  maxDepth : Option Nat
  calls : List Nat
  stuck : Bool
deriving Repr, DecidableEq

/-- `_tryToPushIterator` (GraphNode.ts 754-771, TreeNode.ts 817-831).
With an empty stack it seeds `[root]` (our entry points only construct the
iterator for present roots, so the `undefined` root check is vacuous).
Otherwise it expands the current node: in graph mode (`check = true`) the
circular-reference wrapper first adds the node to the visited set, then calls
the original expansion function; a `null`/`undefined` result refuses the push.
The expansion call is logged in `calls`. -/
def tryToPushIterator (check : Bool) (conns : Nat → Option (List Nat)) (root : Nat)
    (s : DFSState) : Bool × DFSState :=
  if s.stack.isEmpty then
    (true, { s with stack := [(false, [root])] })
  else
    match s.current.head? with
    | none => (false, s)
    | some c =>
      let s := { s with calls := s.calls ++ [c],
                        visited := if check then s.visited.insert c else s.visited }
      match conns c with
      | none => (false, s)
      | some l => (true, { s with stack := (true, l) :: s.stack })

/-- `_topIteratorIsEmpty` (GraphNode.ts 779-798, TreeNode.ts 839-858).
Pulls the next element of the top iterator.  In graph mode the pull goes
through the circular-reference filter, which skips candidates already in the
visited set (the filter re-adds a skipped candidate, a no-op on a set).  On a
successful pull the current-node stack and ancestors array are re-synchronised
exactly as in the source: pop when the lengths match, then push the previous
current node onto the ancestors (if any), then push the pulled node. -/
def topIteratorIsEmpty (check : Bool) (s : DFSState) : Bool × DFSState :=
  match s.stack with
  | [] => (false, s)
  | (filt, rem) :: rest =>
    let rem := if check && filt then rem.dropWhile (fun x => decide (x ∈ s.visited)) else rem
    match rem with
    | [] => (true, { s with stack := (filt, []) :: rest })
    | v :: rem' =>
      let s := { s with stack := (filt, rem') :: rest }
      let s := if s.current.length = s.stack.length then
                 { s with current := s.current.tail, ancestors := s.ancestors.dropLast }
               else s
      let s := match s.current.head? with
               | some t => { s with ancestors := s.ancestors ++ [t] }
               | none => s
      (false, { s with current := v :: s.current })

/-- `_popTopIterator` (GraphNode.ts 800-806). -/
def popTopIterator (s : DFSState) : DFSState :=
  let s := if s.current.length = s.stack.length then
             { s with current := s.current.tail, ancestors := s.ancestors.dropLast }
           else s
  { s with stack := s.stack.tail }

/-- One pop per iteration; each iteration removes a stack entry, so the fuel
`stack.length + 1` used by `popEmptyLoop` is never exhausted. -/
def popEmptyLoopAux (check : Bool) : Nat → DFSState → DFSState
  | 0, s => { s with stuck := true }
  | fuel+1, s =>
    match topIteratorIsEmpty check s with
    | (true, s') => popEmptyLoopAux check fuel (popTopIterator s')
    | (false, s') => s'

/-- `_popEmptyIteratorsUntilWeMove` (GraphNode.ts 773-777). -/
def popEmptyLoop (check : Bool) (s : DFSState) : DFSState :=
  popEmptyLoopAux check (s.stack.length + 1) s

/-- `DepthFirstPreorderIterator.next` (TreeNode.ts 873-897, GraphNode.ts
813-837): maybe push a new level (subject to the `maxDepth` bound), pop
exhausted levels until the cursor moves, then either finish (empty stack) or
yield the current node with the ancestors. -/
def preorderNext (check : Bool) (conns : Nat → Option (List Nat)) (root : Nat)
    (s : DFSState) : Option NodeWithMetadata × DFSState :=
  let s := if (decide (s.maxDepth = some 0) && s.stack.isEmpty) ||
              (match s.maxDepth with
               | none => true
               | some d => decide (s.ancestors.length < d)) then
             (tryToPushIterator check conns root s).2
           else s
  let s := popEmptyLoop check s
  let s := if s.stack.isEmpty then { s with finished := true } else s
  if s.finished then (none, s)
  else (some ⟨s.current.head?, s.ancestors⟩, s)

/-- `reset` (GraphNode.ts 746-752): clears all traversal state including the
visited set, keeps `maxDepth` (and the per-node call counters, which live on
the consumer's nodes in TS). -/
def resetState (s : DFSState) : DFSState :=
  { finished := false, stack := [], current := [], ancestors := [],
    visited := [], maxDepth := s.maxDepth, calls := s.calls, stuck := s.stuck }

/-- Iterator state right after construction. -/
def initDFS : DFSState :=
  { finished := false, stack := [], current := [], ancestors := [], visited := [],
    maxDepth := none, calls := [], stuck := false }

/-- Drive the preorder iterator: collect yields until it reports done
(second component `true`) or fuel runs out / the machine gets stuck
(second component `false`). -/
def preorderRunAux (check : Bool) (conns : Nat → Option (List Nat)) (root : Nat) :
    Nat → DFSState → List NodeWithMetadata × Bool
  | 0, _ => ([], false)
  | fuel+1, s =>
    let (r, s') := preorderNext check conns root s
    if s'.stuck then ([], false)
    else
      match r with
      | none => ([], true)
      | some v =>
        let (out, d) := preorderRunAux check conns root fuel s'
        (v :: out, d)

/-- `DFSWithMetadata` on a present root (tree mode: no circular-reference
checking). -/
def DFSWithMetadataRun (conns : Nat → Option (List Nat)) (root : Nat) (fuel : Nat) :
    List NodeWithMetadata × Bool :=
  preorderRunAux false conns root fuel initDFS

/-- `TreeNode.DFS`: `this?.DFSWithMetadata().map(m => m.node) ?? empty`.
An absent receiver short-circuits to the empty iterable. -/
def DFSRun (conns : Nat → Option (List Nat)) (root : Option Nat) (fuel : Nat) :
    List (Option Nat) × Bool :=
  match root with
  | none => ([], true)
  | some r =>
    let (out, d) := DFSWithMetadataRun conns r fuel
    (out.map (·.node), d)

/-!
## Reference 11-node uneven tree

`TreeNodeForTesting.createTreeForTesting`: 0 → [1,2], 1 → [3,4], 2 → [5,6],
6 → [7], 7 → [8], 8 → [9], 9 → [10]; leaves have `undefined` children. -/
def refChildren : Nat → Option (List Nat)
  | 0 => some [1, 2]
  | 1 => some [3, 4]
  | 2 => some [5, 6]
  | 6 => some [7]
  | 7 => some [8]
  | 8 => some [9]
  | 9 => some [10]
  | _ => none

/-!
## Postorder (`DepthFirstPostorderIterator`, TreeNode.ts 999-1038, GraphNode.ts 839-878)
-/

/-- `_getAppropriateReturnResult`: set `finished` when the current node is the
traversal root (the root is the last node of a postorder walk), then yield the
current node with the ancestors. -/
def postReturnResult (root : Nat) (s : DFSState) : Option NodeWithMetadata × DFSState :=
  let s := if s.current.head? = some root then { s with finished := true } else s
  (some ⟨s.current.head?, s.ancestors⟩, s)

/-- The descent loop `while (this._tryToPushIterator()) { if
(this._topIteratorIsEmpty()) { this._popTopIterator(); break; } }`.  Its
iteration count is not syntactically bounded, so it takes fuel. -/
def postDescend (check : Bool) (conns : Nat → Option (List Nat)) (root : Nat) :
    Nat → DFSState → DFSState
  | 0, s => { s with stuck := true }
  | fuel+1, s =>
    match tryToPushIterator check conns root s with
    | (false, s') => s'
    | (true, s') =>
      match topIteratorIsEmpty check s' with
      | (true, s'') => popTopIterator s''
      | (false, s'') => postDescend check conns root fuel s''

/-- `DepthFirstPostorderIterator.next`: if finished report done; if the top
iterator is exhausted pop once and yield; otherwise descend and yield. -/
def postorderNext (check : Bool) (conns : Nat → Option (List Nat)) (root : Nat)
    (descentFuel : Nat) (s : DFSState) : Option NodeWithMetadata × DFSState :=
  if s.finished then (none, s)
  else
    match topIteratorIsEmpty check s with
    | (true, s') => postReturnResult root (popTopIterator s')
    | (false, s') => postReturnResult root (postDescend check conns root descentFuel s')

/-- Drive the postorder iterator (fuel per the outer `next` calls; each call's
descent loop gets `descentFuel`). -/
def postorderRunAux (check : Bool) (conns : Nat → Option (List Nat)) (root : Nat)
    (descentFuel : Nat) : Nat → DFSState → List NodeWithMetadata × Bool
  | 0, _ => ([], false)
  | fuel+1, s =>
    let (r, s') := postorderNext check conns root descentFuel s
    if s'.stuck then ([], false)
    else
      match r with
      | none => ([], true)
      | some v =>
        let (out, d) := postorderRunAux check conns root descentFuel fuel s'
        (v :: out, d)

/-- `DFSPostorderWithMetadata` on a present root (tree mode). -/
def DFSPostorderWithMetadataRun (conns : Nat → Option (List Nat)) (root : Nat)
    (fuel descentFuel : Nat) : List NodeWithMetadata × Bool :=
  postorderRunAux false conns root descentFuel fuel initDFS

/-- `TreeNode.DFSPostorder`: nullish receiver short-circuits to empty. -/
def DFSPostorderRun (conns : Nat → Option (List Nat)) (root : Option Nat)
    (fuel descentFuel : Nat) : List (Option Nat) × Bool :=
  match root with
  | none => ([], true)
  | some r =>
    let (out, d) := DFSPostorderWithMetadataRun conns r fuel descentFuel
    (out.map (·.node), d)

/-!
## Iterative-deepening breadth-first search
(`IterativeDeepeningBreadthFirstIterator`, TreeNode.ts 1040-1074 and the
duplicate-suppressing graph variant GraphNode.ts 880-917)
-/

/-- State of the iterative-deepening wrapper: the inner bounded preorder
iterator, the target depth, the `hasMoreNodes` flag, and (graph variant only,
`dedupe = true`) the outer visited set of already-emitted nodes. -/
structure IDBFSState where
  inner : DFSState
  currentDepth : Nat
  hasMoreNodes : Bool
  visitedOuter : List (Option Nat)
  stuck : Bool
deriving Repr, DecidableEq

/-- Constructor: inner preorder iterator with `maxDepth = 0`. -/
def initIDBFS : IDBFSState :=
  { inner := { initDFS with maxDepth := some 0 },
    currentDepth := 0, hasMoreNodes := true, visitedOuter := [], stuck := false }

/-- `_increaseDepth`: bump the target depth, propagate it to the inner
iterator's `maxDepth`, reset the inner iterator, clear `hasMoreNodes`. -/
def increaseDepth (s : IDBFSState) : IDBFSState :=
  let d := s.currentDepth + 1
  { s with currentDepth := d,
           inner := resetState { s.inner with maxDepth := some d },
           hasMoreNodes := false }

/-- The body of `next`'s `do … while(true)` loop: pull the inner iterator;
on done either finish (no node was emitted this pass) or deepen and continue;
skip nodes above the target depth (and, for the graph variant, already-emitted
nodes); otherwise emit.  Fueled by the number of inner pulls. -/
def idbfsLoop (check : Bool) (conns : Nat → Option (List Nat)) (root : Nat)
    (dedupe : Bool) : Nat → IDBFSState → Option NodeWithMetadata × IDBFSState
  | 0, s => (none, { s with stuck := true })
  | fuel+1, s =>
    let (r, inner') := preorderNext check conns root s.inner
    let s := { s with inner := inner' }
    if inner'.stuck then (none, { s with stuck := true })
    else
      match r with
      | none =>
        if s.hasMoreNodes then idbfsLoop check conns root dedupe fuel (increaseDepth s)
        else (none, s)
      | some v =>
        if v.depth < s.currentDepth then idbfsLoop check conns root dedupe fuel s
        else if dedupe && decide (v.node ∈ s.visitedOuter) then
          idbfsLoop check conns root dedupe fuel s
        else
          (some v, { s with hasMoreNodes := true,
                            visitedOuter := if dedupe then s.visitedOuter.insert v.node
                                            else s.visitedOuter })

/-- `IterativeDeepeningBreadthFirstIterator.next`: done once `hasMoreNodes`
is false, otherwise run the pull loop. -/
def idbfsNext (check : Bool) (conns : Nat → Option (List Nat)) (root : Nat)
    (dedupe : Bool) (loopFuel : Nat) (s : IDBFSState) :
    Option NodeWithMetadata × IDBFSState :=
  if s.hasMoreNodes then idbfsLoop check conns root dedupe loopFuel s
  else (none, s)

/-- Drive the iterative-deepening iterator. -/
def idbfsRunAux (check : Bool) (conns : Nat → Option (List Nat)) (root : Nat)
    (dedupe : Bool) (loopFuel : Nat) : Nat → IDBFSState → List NodeWithMetadata × Bool
  | 0, _ => ([], false)
  | fuel+1, s =>
    let (r, s') := idbfsNext check conns root dedupe loopFuel s
    if s'.stuck then ([], false)
    else
      match r with
      | none => ([], true)
      | some v =>
        let (out, d) := idbfsRunAux check conns root dedupe loopFuel fuel s'
        (v :: out, d)

/-- `BFSWithMetadata` on a present root (tree mode: no circular-reference
check, no duplicate suppression). -/
def BFSWithMetadataRun (conns : Nat → Option (List Nat)) (root : Nat)
    (fuel loopFuel : Nat) : List NodeWithMetadata × Bool :=
  idbfsRunAux false conns root false loopFuel fuel initIDBFS

/-- `TreeNode.BFS`: nullish receiver short-circuits to empty. -/
def BFSRun (conns : Nat → Option (List Nat)) (root : Option Nat)
    (fuel loopFuel : Nat) : List (Option Nat) × Bool :=
  match root with
  | none => ([], true)
  | some r =>
    let (out, d) := BFSWithMetadataRun conns r fuel loopFuel
    (out.map (·.node), d)

/-!
## Queue-based breadth-first search (`QueueBreadthFirstIterator`,
TreeNode.ts 1088-1134 tree version, GraphNode.ts 935-1003 graph version)
-/

/-- `NodeWithBackPath`: the node plus its parent chain.  The TS object holds a
reference to the parent wrapper; flattened here, `parents` lists the ancestor
nodes parent-first, root last — exactly what the `ancestors` getter yields by
walking the `parent` pointers and skipping the node itself. -/
structure NodeWithBackPath where
  node : Nat
  parents : List Nat
deriving Repr, DecidableEq

/-- An entry of the traversal queue: either the synthetic single-shot root
iterator, or the (lazily filtered and wrapped) children iterator of an already
yielded node, represented by the parent's back-path and the remaining
children. -/
inductive QEntry where
  | root (consumed : Bool)
  | kids (parent : NodeWithBackPath) (rem : List Nat)
deriving Repr, DecidableEq

/-- State of the queue-based iterator: the queue of pending iterators (front
first) and, for the graph version, the visited set. -/
structure QBFSState where
  queue : List QEntry
  visited : List Nat
  stuck : Bool
deriving Repr, DecidableEq

/-- Iterator state right after construction: the queue holds the single-shot
root iterator. -/
def initQBFS : QBFSState :=
  { queue := [.root false], visited := [], stuck := false }

/-- One pull on the front queue entry.  Tree version (`check = false`): plain
consumption.  Graph version (`check = true`): each pull of a children iterator
goes through the circular-reference filter, which skips candidates already in
the visited set and — as written in the source (GraphNode.ts 956-962) — adds
the *expanded node* (the parent, captured by the wrapper) to the visited set
when it admits a candidate.  Returns the pulled back-path (none = exhausted),
the consumed entry, and the updated visited set. -/
def qPull (check : Bool) (root : Nat) (visited : List Nat) :
    QEntry → Option NodeWithBackPath × QEntry × List Nat
  | .root true => (none, .root true, visited)
  | .root false => (some ⟨root, []⟩, .root true, visited)
  | .kids p rem =>
    let rem := if check then rem.dropWhile (fun x => decide (x ∈ visited)) else rem
    match rem with
    | [] => (none, .kids p [], visited)
    | c :: rem' =>
      (some ⟨c, p.node :: p.parents⟩, .kids p rem',
       if check then visited.insert p.node else visited)

/-- The dequeue loop of `next`: pull the front entry; while it is exhausted,
dequeue it and try the new front; an empty queue reports done.  Each iteration
dequeues, so fuel `queue.length + 1` is never exhausted. -/
def qPullLoop (check : Bool) (root : Nat) :
    Nat → QBFSState → Option NodeWithBackPath × QBFSState
  | 0, s => (none, { s with stuck := true })
  | fuel+1, s =>
    match s.queue with
    | [] => (none, s)
    | e :: rest =>
      match qPull check root s.visited e with
      | (some bp, e', vis') => (some bp, { s with queue := e' :: rest, visited := vis' })
      | (none, _, vis') => qPullLoop check root fuel { s with queue := rest, visited := vis' }

/-- `QueueBreadthFirstIterator.next`.  After a successful pull, the graph
version (GraphNode.ts 984) adds the pulled node to the visited set; both
versions then expand the pulled node (skipping an absent node), enqueue the
lazily wrapped children iterator when the expansion is not `null`/`undefined`,
and return the pulled value. -/
def qbfsNext (check : Bool) (conns : Nat → Option (List Nat)) (root : Nat)
    (s : QBFSState) : Option NodeWithBackPath × QBFSState :=
  match qPullLoop check root (s.queue.length + 1) s with
  | (none, s') => (none, s')
  | (some bp, s') =>
    let s' := if check then { s' with visited := s'.visited.insert bp.node } else s'
    let s' := match conns bp.node with
              | none => s'
              | some l => { s' with queue := s'.queue ++ [.kids bp l] }
    (some bp, s')

/-- Drive the queue-based iterator. -/
def qbfsRunAux (check : Bool) (conns : Nat → Option (List Nat)) (root : Nat) :
    Nat → QBFSState → List NodeWithBackPath × Bool
  | 0, _ => ([], false)
  | fuel+1, s =>
    let (r, s') := qbfsNext check conns root s
    if s'.stuck then ([], false)
    else
      match r with
      | none => ([], true)
      | some v =>
        let (out, d) := qbfsRunAux check conns root fuel s'
        (v :: out, d)

/-- `BFSFastWithMetadata` on a present root (tree mode; the method itself
checks for a nullish receiver and returns the empty iterable). -/
def BFSFastWithMetadataRun (conns : Nat → Option (List Nat)) (root : Nat)
    (fuel : Nat) : List NodeWithBackPath × Bool :=
  qbfsRunAux false conns root fuel initQBFS

/-- `BFSFastWithMetadata` including its explicit receiver guard
(`if (this === null || this === undefined) return empty`). -/
def BFSFastWithMetadataEntry (conns : Nat → Option (List Nat)) (root : Option Nat)
    (fuel : Nat) : List NodeWithBackPath × Bool :=
  match root with
  | none => ([], true)
  | some r => BFSFastWithMetadataRun conns r fuel

/-- `TreeNode.BFSFast`: nullish receiver short-circuits to empty. -/
def BFSFastRun (conns : Nat → Option (List Nat)) (root : Option Nat)
    (fuel : Nat) : List Nat × Bool :=
  match root with
  | none => ([], true)
  | some r =>
    let (out, d) := BFSFastWithMetadataRun conns r fuel
    (out.map (·.node), d)

/-- `GraphNode.BFSFastWithMetadata` on a present root (graph mode: circular
reference checking on). -/
def GraphBFSFastWithMetadataRun (adj : Nat → Option (List Nat)) (root : Nat)
    (fuel : Nat) : List NodeWithBackPath × Bool :=
  qbfsRunAux true adj root fuel initQBFS

/-- `GraphNode.BFSFast`: nullish receiver short-circuits to empty. -/
def GraphBFSFastRun (adj : Nat → Option (List Nat)) (root : Option Nat)
    (fuel : Nat) : List Nat × Bool :=
  match root with
  | none => ([], true)
  | some r =>
    let (out, d) := GraphBFSFastWithMetadataRun adj r fuel
    (out.map (·.node), d)

/-!
## Graph-mode entry points for the depth-first engines
(`GraphNode.DFS` / `DFSPostorder` / `BFS`, GraphNode.ts: always constructed
with `checkForCircularReferences = true`; the iterative deepening variant also
suppresses duplicate emissions through its own visited set.)
-/

/-- `GraphNode.DFSWithMetadata` on a present root. -/
def GraphDFSWithMetadataRun (adj : Nat → Option (List Nat)) (root : Nat) (fuel : Nat) :
    List NodeWithMetadata × Bool :=
  preorderRunAux true adj root fuel initDFS

/-- `GraphNode.DFS`: nullish receiver short-circuits to empty. -/
def GraphDFSRun (adj : Nat → Option (List Nat)) (root : Option Nat) (fuel : Nat) :
    List (Option Nat) × Bool :=
  match root with
  | none => ([], true)
  | some r =>
    let (out, d) := GraphDFSWithMetadataRun adj r fuel
    (out.map (·.node), d)

/-- `GraphNode.DFSPostorderWithMetadata` on a present root. -/
def GraphDFSPostorderWithMetadataRun (adj : Nat → Option (List Nat)) (root : Nat)
    (fuel descentFuel : Nat) : List NodeWithMetadata × Bool :=
  postorderRunAux true adj root descentFuel fuel initDFS

/-- `GraphNode.DFSPostorder`: nullish receiver short-circuits to empty. -/
def GraphDFSPostorderRun (adj : Nat → Option (List Nat)) (root : Option Nat)
    (fuel descentFuel : Nat) : List (Option Nat) × Bool :=
  match root with
  | none => ([], true)
  | some r =>
    let (out, d) := GraphDFSPostorderWithMetadataRun adj r fuel descentFuel
    (out.map (·.node), d)

/-- `GraphNode.BFSWithMetadata` on a present root (iterative deepening with
duplicate suppression). -/
def GraphBFSWithMetadataRun (adj : Nat → Option (List Nat)) (root : Nat)
    (fuel loopFuel : Nat) : List NodeWithMetadata × Bool :=
  idbfsRunAux true adj root true loopFuel fuel initIDBFS

/-- `GraphNode.BFS`: nullish receiver short-circuits to empty. -/
def GraphBFSRun (adj : Nat → Option (List Nat)) (root : Option Nat)
    (fuel loopFuel : Nat) : List (Option Nat) × Bool :=
  match root with
  | none => ([], true)
  | some r =>
    let (out, d) := GraphBFSWithMetadataRun adj r fuel loopFuel
    (out.map (·.node), d)

/-!
## Binary trees and the in-order engine
(`BinaryTreeNode` / `DepthFirstInOrderIterator`, TreeNode.ts 502-611, 899-997)
-/

/-- A binary tree node; `nil` encodes a `null`/`undefined` child pointer.
Structural values model the consumer's node objects. -/
inductive BTree where
  | nil : BTree
  | node : Nat → BTree → BTree → BTree
deriving Repr, DecidableEq

/-- `getLeft()`: the left child, absent when the pointer is null. -/
def BTree.getLeft : BTree → Option BTree
  | .nil => none
  | .node _ l _ => match l with | .nil => none | t => some t

/-- `getRight()`: the right child, absent when the pointer is null. -/
def BTree.getRight : BTree → Option BTree
  | .nil => none
  | .node _ _ r => match r with | .nil => none | t => some t

/-- The label carried by a test node (`value` in the spec's tree builders). -/
def BTree.val : BTree → Nat
  | .nil => 0
  | .node v _ _ => v

/-- A `{ node, hasGoneLeft, hasGoneRight }` frame of the in-order traversal
stack. -/
structure InOrderFrame where
  node : BTree
  hasGoneLeft : Bool
  hasGoneRight : Bool
deriving Repr, DecidableEq

/-- In-order iterator state: the frame stack (top first) and the ancestors
array (push/pop at the end). -/
structure InOrderState where
  stack : List InOrderFrame
  ancestors : List BTree
  stuck : Bool
deriving Repr, DecidableEq

/-- `NodeWithMetadata` as yielded by the in-order iterator (over binary-tree
nodes). -/
structure BTNodeWithMetadata where
  node : BTree
  ancestors : List BTree
deriving Repr, DecidableEq

/-- Constructor: push the root frame with both flags cleared. -/
def initInOrder (root : BTree) : InOrderState :=
  { stack := [⟨root, false, false⟩], ancestors := [], stuck := false }

/-- `_moveLeft` (TreeNode.ts 956-974): mark the top frame as having gone left,
then, if a left child exists, push the current node onto the ancestors and a
fresh frame for the child. -/
def inOrderMoveLeft (s : InOrderState) : Bool × InOrderState :=
  match s.stack with
  | [] => (false, s)
  | f :: rest =>
    let s := { s with stack := { f with hasGoneLeft := true } :: rest }
    match f.node.getLeft with
    | some l =>
      let s := { s with ancestors := s.ancestors ++ [f.node] }
      (true, { s with stack := ⟨l, false, false⟩ :: s.stack })
    | none => (false, s)

/-- `_moveRight` (TreeNode.ts 976-996): the mirror image. -/
def inOrderMoveRight (s : InOrderState) : Bool × InOrderState :=
  match s.stack with
  | [] => (false, s)
  | f :: rest =>
    let s := { s with stack := { f with hasGoneRight := true } :: rest }
    match f.node.getRight with
    | some r =>
      let s := { s with ancestors := s.ancestors ++ [f.node] }
      (true, { s with stack := ⟨r, false, false⟩ :: s.stack })
    | none => (false, s)

/-- The left-descent loop `while(!peek.hasGoneLeft) { if (!moveLeft) break;
moved = true; }`; reports whether at least one descent step succeeded. -/
def inOrderLeftLoop : Nat → InOrderState → Bool × InOrderState
  | 0, s => (false, { s with stuck := true })
  | fuel+1, s =>
    match s.stack with
    | [] => (false, s)
    | f :: _ =>
      if f.hasGoneLeft then (false, s)
      else
        match inOrderMoveLeft s with
        | (false, s') => (false, s')
        | (true, s') =>
          let (_, s'') := inOrderLeftLoop fuel s'
          (true, s'')

/-- The pop loop `while (peek?.hasGoneLeft && peek?.hasGoneRight) { pop;
ancestors.pop(); moved = true; }`; reports whether it popped. -/
def inOrderPopLoop : Nat → InOrderState → Bool × InOrderState
  | 0, s => (false, { s with stuck := true })
  | fuel+1, s =>
    match s.stack with
    | ⟨_, true, true⟩ :: rest =>
      let s := { s with stack := rest, ancestors := s.ancestors.dropLast }
      let (_, s') := inOrderPopLoop fuel s
      (true, s')
    | _ => (false, s)

/-- The body of `DepthFirstInOrderIterator.next` (TreeNode.ts 922-954):
the outer `while (stack.length > 0 && (!peek.hasGoneLeft ||
!peek.hasGoneRight))` loop, carrying the `moved` flag across iterations.
The emission point is `if (moved && !peek.hasGoneRight) return node`. -/
def inOrderNextAux : Nat → Bool → InOrderState → Option BTNodeWithMetadata × InOrderState
  | 0, _, s => (none, { s with stuck := true })
  | fuel+1, moved, s =>
    match s.stack with
    | [] => (none, s)
    | f :: _ =>
      if f.hasGoneLeft && f.hasGoneRight then (none, s)
      else
        let (lmv, s) := inOrderLeftLoop (fuel+1) s
        let moved := moved || lmv
        if s.stuck then (none, s)
        else
          match s.stack with
          | [] => (none, s)
          | g :: _ =>
            if moved && !g.hasGoneRight then
              (some ⟨g.node, s.ancestors⟩, s)
            else
              let (moved, s) := if !g.hasGoneRight then inOrderMoveRight s else (moved, s)
              let (pmv, s) := if !moved then inOrderPopLoop (fuel+1) s else (false, s)
              let moved := moved || pmv
              if s.stuck then (none, s)
              else inOrderNextAux fuel moved s

/-- `next()`: enter the loop with `moved = false`. -/
def inOrderNext (fuel : Nat) (s : InOrderState) : Option BTNodeWithMetadata × InOrderState :=
  inOrderNextAux fuel false s

/-- Drive the in-order iterator. -/
def inOrderRunAux (loopFuel : Nat) : Nat → InOrderState → List BTNodeWithMetadata × Bool
  | 0, _ => ([], false)
  | fuel+1, s =>
    let (r, s') := inOrderNext loopFuel s
    if s'.stuck then ([], false)
    else
      match r with
      | none => ([], true)
      | some v =>
        let (out, d) := inOrderRunAux loopFuel fuel s'
        (v :: out, d)

/-- `DFSInOrderWithMetadata`: the iterable returns the empty iterator for an
absent root, otherwise constructs the iterator on it. -/
def DFSInOrderWithMetadataRun (root : Option BTree) (fuel loopFuel : Nat) :
    List BTNodeWithMetadata × Bool :=
  match root with
  | none => ([], true)
  | some r => inOrderRunAux loopFuel fuel (initInOrder r)

/-- `BinaryTreeNode.DFSInOrder`: absent receiver short-circuits to empty,
otherwise map the metadata down to the nodes. -/
def DFSInOrderRun (root : Option BTree) (fuel loopFuel : Nat) : List BTree × Bool :=
  match root with
  | none => ([], true)
  | some r =>
    let (out, d) := DFSInOrderWithMetadataRun (some r) fuel loopFuel
    (out.map (·.node), d)

/-- The reference 11-node tree in its binary shape
(`BinaryTreeNodeForTesting.createTreeForTesting`). -/
def refBTree : BTree :=
  .node 0
    (.node 1 (.node 3 .nil .nil) (.node 4 .nil .nil))
    (.node 2 (.node 5 .nil .nil)
      (.node 6
        (.node 7 .nil
          (.node 8
            (.node 9 .nil (.node 10 .nil .nil))
            .nil))
        .nil))

/-!
## The binary heap (`Heap` / `MinHeap`, Heap.ts)

The heap array becomes a `List`, indexed as the source indexes the array.
`sink first second` is the `_sinkStrategy`: `true` when `first` belongs below
`second`.  Costs are integers (the TS numbers are only ever added and
compared here). -/

section Heap

variable {α : Type} (sink : α → α → Bool)

/-- `_heapifyUp` (Heap.ts 1194-1207).  The index strictly decreases, so fuel
`index + 1` (we pass `length + 1`) is never exhausted. -/
def heapifyUpAux : Nat → List α → Nat → List α
  | 0, h, _ => h
  | fuel+1, h, index =>
    if index = 0 then h
    else
      let parentIndex := (index - 1) / 2
      match h.get? parentIndex, h.get? index with
      | some parentValue, some currentValue =>
        if sink parentValue currentValue then
          heapifyUpAux fuel ((h.set index parentValue).set parentIndex currentValue) parentIndex
        else h
      | _, _ => h

/-- `push` (Heap.ts 1163-1166): append, then heapify up from the last slot. -/
def heapPush (h : List α) (x : α) : List α :=
  heapifyUpAux sink (h.length + 1) (h ++ [x]) h.length

/-- `_heapifyDown` (Heap.ts 1209-1234).  The index at least doubles per
iteration, so fuel `length + 1` is never exhausted. -/
def heapifyDownAux : Nat → List α → Nat → List α
  | 0, h, _ => h
  | fuel+1, h, index =>
    if index < h.length then
      let leftIndex := 2 * index + 1
      if leftIndex ≥ h.length then h
      else
        match h.get? leftIndex with
        | none => h
        | some leftValue =>
          let rightIndex := 2 * index + 2
          let rightValue := h.get? rightIndex
          let mostExtremeChild := match rightValue with
                                  | none => true
                                  | some rv => sink rv leftValue
          let minChild := if mostExtremeChild then leftValue else rightValue.getD leftValue
          match h.get? index with
          | none => h
          | some topValue =>
            if sink topValue minChild then
              if mostExtremeChild then
                heapifyDownAux fuel ((h.set leftIndex topValue).set index minChild) leftIndex
              else
                heapifyDownAux fuel ((h.set rightIndex topValue).set index minChild) rightIndex
            else h
    else h

/-- `pop` (Heap.ts 1171-1180), translated faithfully: an empty heap yields
`undefined`; otherwise `oldTop = heap[0]`, then `heap[0] = heap.pop()!` —
note that when the heap held a single element, `Array.prototype.pop()` empties
the array and the index assignment re-creates slot 0, so the element is
returned but never removed — then heapify down and return `oldTop`. -/
def heapPop (h : List α) : Option α × List α :=
  match h with
  | [] => (none, [])
  | top :: rest =>
    let last := ((top :: rest).getLast?).getD top
    let h' := (top :: rest).dropLast
    let h'' := match h' with
               | [] => [last]
               | _ :: t => last :: t
    (some top, heapifyDownAux sink (h''.length + 1) h'' 0)

end Heap

/-!
## Shortest-path engine (`DjikstraIterator` / `AStarIterable`,
GraphNode.ts 1005-1091)
-/

/-- `NodeWithBackPath` as used by the shortest-path engine: the node may be
absent (the `Djikstra` method has no nullish-receiver guard, so the iterator
can be seeded with an absent root). -/
structure GraphNodeWithBackPath where
  node : Option Nat
  parents : List (Option Nat)
deriving Repr, DecidableEq

/-- A heap entry `{ totalCost, graphNodeWithBackPath }`. -/
structure DjikstraHeapNode where
  totalCost : Int
  graphNodeWithBackPath : GraphNodeWithBackPath
deriving Repr, DecidableEq

/-- The `MinHeap` sink strategy with the Dijkstra comparer
`(a, b) => a.totalCost - b.totalCost`: sink when the comparison is
positive. -/
def djSink (a b : DjikstraHeapNode) : Bool :=
  decide (a.totalCost - b.totalCost > 0)

/-- The caller-supplied cost function `(from, to) => number`. -/
abbrev CostFn := GraphNodeWithBackPath → GraphNodeWithBackPath → Int

/-- Shortest-path iterator state: the heap and the visited set. -/
structure DijkstraState where
  heap : List DjikstraHeapNode
  visited : List Nat
  stuck : Bool
deriving Repr, DecidableEq

/-- Constructor: heap seeded with `{ totalCost: 0, root back-path }`. -/
def initDijkstra (root : Option Nat) : DijkstraState :=
  { heap := [⟨0, ⟨root, []⟩⟩], visited := [], stuck := false }

/-- The lazy-deletion loop of `next` (GraphNode.ts 1042-1045): pop until the
entry's node is not already visited (an absent node is never in the set) or
the heap reports `undefined`.  The loop has no syntactic bound — with the
faithful `heapPop` it genuinely fails to terminate once only visited entries
remain — so it takes fuel; exhaustion is flagged in the third component. -/
def djSkipLoop : Nat → List DjikstraHeapNode → List Nat →
    Option DjikstraHeapNode × List DjikstraHeapNode × Bool
  | 0, h, _ => (none, h, true)
  | fuel+1, h, visited =>
    match heapPop djSink h with
    | (none, h') => (none, h', false)
    | (some e, h') =>
      match e.graphNodeWithBackPath.node with
      | some v =>
        if v ∈ visited then djSkipLoop fuel h' visited
        else (some e, h', false)
      | none => (some e, h', false)

/-- `DjikstraIterator.next` (GraphNode.ts 1041-1069): pop (skipping stale
visited entries); on `undefined` report done; otherwise, when the node is
present, mark it visited, expand its adjacency filtered to unvisited nodes
and push each neighbour with the accumulated cost; return the popped
back-path. -/
def dijkstraNext (adj : Nat → Option (List Nat)) (costFn : CostFn)
    (skipFuel : Nat) (s : DijkstraState) : Option GraphNodeWithBackPath × DijkstraState :=
  match djSkipLoop skipFuel s.heap s.visited with
  | (_, h', true) => (none, { s with heap := h', stuck := true })
  | (none, h', false) => (none, { s with heap := h' })
  | (some e, h', false) =>
    match e.graphNodeWithBackPath.node with
    | none => (some e.graphNodeWithBackPath, { s with heap := h' })
    | some v =>
      let visited := s.visited.insert v
      let bp := e.graphNodeWithBackPath
      let h'' := match adj v with
                 | none => h'
                 | some l =>
                   (l.filter (fun a => decide (a ∉ visited))).foldl
                     (fun hh a =>
                       heapPush djSink hh
                         ⟨e.totalCost + costFn bp ⟨some a, bp.node :: bp.parents⟩,
                          ⟨some a, bp.node :: bp.parents⟩⟩)
                     h'
      (some bp, { s with heap := h'', visited := visited })

/-- Drive the shortest-path iterator. -/
def dijkstraRunAux (adj : Nat → Option (List Nat)) (costFn : CostFn)
    (skipFuel : Nat) : Nat → DijkstraState → List GraphNodeWithBackPath × Bool
  | 0, _ => ([], false)
  | fuel+1, s =>
    let (r, s') := dijkstraNext adj costFn skipFuel s
    if s'.stuck then ([], false)
    else
      match r with
      | none => ([], true)
      | some v =>
        let (out, d) := dijkstraRunAux adj costFn skipFuel fuel s'
        (v :: out, d)

/-- `GraphNode.Djikstra(costFunction)`: constructs the iterable directly on
the receiver — there is no nullish-receiver guard, so an absent root reaches
the iterator. -/
def DjikstraRun (adj : Nat → Option (List Nat)) (root : Option Nat) (costFn : CostFn)
    (fuel skipFuel : Nat) : List GraphNodeWithBackPath × Bool :=
  dijkstraRunAux adj costFn skipFuel fuel (initDijkstra root)

/-- `GraphNode.AStar(costFunction, heuristicFunction)` / `AStarIterable`:
literally the Dijkstra iterator on the augmented cost function
`(from, to) => costFunction(from, to) + heuristicFunction(from, to)`. -/
def AStarRun (adj : Nat → Option (List Nat)) (root : Option Nat)
    (costFn heuristicFn : CostFn) (fuel skipFuel : Nat) :
    List GraphNodeWithBackPath × Bool :=
  DjikstraRun adj root (fun a b => costFn a b + heuristicFn a b) fuel skipFuel

/-!
## Run-state helpers (the iterator state left behind by a traversal)
-/

/-- The preorder iterator state after at most `fuel` calls to `next`, stopping
at done (or stuck) exactly as a `for…of` loop does. -/
def preorderRunState (check : Bool) (conns : Nat → Option (List Nat)) (root : Nat) :
    Nat → DFSState → DFSState
  | 0, s => s
  | fuel+1, s =>
    match preorderNext check conns root s with
    | (none, s') => s'
    | (some _, s') => if s'.stuck then s' else preorderRunState check conns root fuel s'

/-- The postorder iterator state after at most `fuel` calls to `next`,
stopping at done (or stuck). -/
def postorderRunState (check : Bool) (conns : Nat → Option (List Nat)) (root : Nat)
    (descentFuel : Nat) : Nat → DFSState → DFSState
  | 0, s => s
  | fuel+1, s =>
    match postorderNext check conns root descentFuel s with
    | (none, s') => s'
    | (some _, s') =>
      if s'.stuck then s' else postorderRunState check conns root descentFuel fuel s'

/-- The two-node tree: root `0` with single child `1`. -/
def twoChildren : Nat → Option (List Nat)
  | 0 => some [1]
  | _ => none

/-!
# Theorems
-/

/-- The four-node star: root `0` adjacent to `1`, `2`, `3`; leaves have empty
adjacency. -/
def starAdj : Nat → Option (List Nat)
  | 0 => some [1, 2, 3]
  | _ => some []
/-- The single-node graph: node `0` with empty adjacency. -/
def oneNodeAdj : Nat → Option (List Nat) := fun _ => some []

/-- The state of the Dijkstra iterator after its first `next` on the
single-node graph: node `0` visited, and the heap still holding the seed
entry, because `Heap.pop` on a one-element heap returns the top without
removing it (`this._heap[0] = this._heap.pop()!` re-creates the slot). -/
def dijkstraStuckState : DijkstraState :=
  { heap := [⟨0, ⟨some 0, []⟩⟩], visited := [0], stuck := false }
/-- The diamond graph with two in-flight parents of node `3`:
0 → [1,2], 1 → [3], 2 → [3]. -/
def diamondAdj : Nat → Option (List Nat)
  | 0 => some [1, 2]
  | 1 => some [3]
  | 2 => some [3]
  | _ => some []
/-- Number of constructors of a binary tree; a proper child is strictly
smaller. -/
def BTree.size : BTree → Nat
  | .nil => 1
  | .node _ l r => l.size + r.size + 1
/-- The invariant that carries the C10 argument: either the frame stack is
empty (traversal over), or its bottom frame is the root with both direction
flags set, and every frame above it holds a strictly smaller tree — so the
emission guard `moved && !top.hasGoneRight` can never fire on the root. -/
def InOrderRootInv (b : BTree) (s : InOrderState) : Prop :=
  s.stack = [] ∨
  ∃ fs, s.stack = fs ++ [⟨b, true, true⟩] ∧ ∀ f ∈ fs, f.node.size < b.size
/-- The `depth` getter of `NodeWithMetadata`, instantiated at binary tree
nodes (`return this.ancestors.length`). -/
def BTNodeWithMetadata.depth (m : BTNodeWithMetadata) : Nat := m.ancestors.length
/-- Core invariant of the depth-first engine state. -/
def DFSAncCore (root : Nat) (s : DFSState) : Prop :=
  s.ancestors = s.current.tail.reverse ∧
  (s.current ≠ [] → s.current.getLast? = some root) ∧
  (s.stack ≠ [] →
    s.stack.getLast? = some (false, [root]) ∨ s.stack.getLast? = some (false, []))

/-- Rest-point invariant: core plus equal stack lengths. -/
def DFSAncEq (root : Nat) (s : DFSState) : Prop :=
  DFSAncCore root s ∧ s.stack.length = s.current.length

/-- Transient invariant: core plus stack lengths off by at most one. -/
def DFSAncLoose (root : Nat) (s : DFSState) : Prop :=
  DFSAncCore root s ∧
  (s.stack.length = s.current.length ∨ s.stack.length = s.current.length + 1)
/-- In-order engine invariant: the ancestors array mirrors the frame stack
below the top (root first), and the bottom frame of the stack holds the
traversal root. -/
def InOrderAncInv (b : BTree) (s : InOrderState) : Prop :=
  s.ancestors = (s.stack.tail.reverse).map (fun f => f.node) ∧
  ∀ f, s.stack.getLast? = some f → f.node = b
/-- Coupling invariant between the Dijkstra iterator's state and the
queue-based breadth-first iterator's state on a functional graph (out-degree
at most one): either both are freshly constructed, or both have yielded the
same nodes (with `nl` the last of them), their visited sets are the same list,
the queue holds one exhausted entry followed by the pending children iterator
of `nl`, and the heap holds the stale entry of `nl` plus, when the pending
child exists and is unvisited, its fresh entry at the next cost level. -/
def ChainRel (adj : Nat → Option (List Nat)) (r : Nat)
    (sd : DijkstraState) (sq : QBFSState) : Prop :=
  (sd = initDijkstra (some r) ∧ sq = initQBFS) ∨
  (∃ (c : Int) (pd : List (Option Nat)) (pq : List Nat) (nl : Nat)
     (E : QEntry) (vis : List Nat),
    (E = QEntry.root true ∨ ∃ b₀, E = QEntry.kids b₀ []) ∧
    sd.visited = vis ∧ sq.visited = vis ∧ nl ∈ vis ∧
    sd.stuck = false ∧ sq.stuck = false ∧
    ((adj nl = none ∧ sd.heap = [⟨c, ⟨some nl, pd⟩⟩] ∧ sq.queue = [E]) ∨
     (∃ rem, adj nl = some rem ∧
       sq.queue = [E, QEntry.kids ⟨nl, pq⟩ rem] ∧
       ((rem = [] ∧ sd.heap = [⟨c, ⟨some nl, pd⟩⟩]) ∨
        (∃ m, rem = [m] ∧ m ∈ vis ∧ sd.heap = [⟨c, ⟨some nl, pd⟩⟩]) ∨
        (∃ m, rem = [m] ∧ m ∉ vis ∧
          sd.heap = [⟨c, ⟨some nl, pd⟩⟩,
                     ⟨c + 1, ⟨some m, some nl :: pd⟩⟩])))))

/-- C1: On the reference 11-node uneven tree, DFS preorder yields exactly
0,1,3,4,2,5,6,7,8,9,10; DFS postorder yields exactly 3,4,1,5,10,9,8,7,6,2,0;
both breadth-first strategies (iterative-deepening BFS and queue-based
BFSFast) yield exactly 0,1,2,3,4,5,6,7,8,9,10; and DFS in-order on the
equivalent binary shape yields exactly 3,1,4,0,5,2,7,9,10,8,6.  Each run ends
with the iterator reporting done (second component `true`). -/
theorem c1_reference_tree_traversal_orders :
    DFSRun refChildren (some 0) 30 =
      ([0, 1, 3, 4, 2, 5, 6, 7, 8, 9, 10].map some, true) ∧
    DFSPostorderRun refChildren (some 0) 30 30 =
      ([3, 4, 1, 5, 10, 9, 8, 7, 6, 2, 0].map some, true) ∧
    BFSRun refChildren (some 0) 60 400 =
      ([0, 1, 2, 3, 4, 5, 6, 7, 8, 9, 10].map some, true) ∧
    BFSFastRun refChildren (some 0) 30 =
      ([0, 1, 2, 3, 4, 5, 6, 7, 8, 9, 10], true) ∧
    (DFSInOrderRun (some refBTree) 30 60).1.map BTree.val =
      [3, 1, 4, 0, 5, 2, 7, 9, 10, 8, 6] ∧
    (DFSInOrderRun (some refBTree) 30 60).2 = true := by
  refine ⟨?_, ?_, ?_, ?_, ?_, ?_⟩ <;> decide

/-- C5 counterexample: the claim says a yielded `NodeWithMetadata` is an
immutable snapshot whose `ancestors` never changes after it is yielded.  In
the source, `DepthFirstIterator`'s `ancestors` getter returns the engine's
internal `_ancestors` array itself, and `new NodeWithMetadata(node,
this.ancestors)` stores that same array object — every yielded instance
aliases the one live array, which later `next()` calls mutate in place via
`push`/`pop`.  Concretely, on the two-node tree the engine's ancestors array
is `[]` when the root's wrapper is yielded and `[0]` one call later, so the
already-yielded wrapper's `ancestors` (the same array) has changed. -/
theorem c5_yielded_ancestors_array_is_mutated :
    (preorderNext false twoChildren 0 initDFS).1 = some ⟨some 0, []⟩ ∧
    (preorderNext false twoChildren 0 initDFS).2.ancestors = [] ∧
    (preorderNext false twoChildren 0
        (preorderNext false twoChildren 0 initDFS).2).2.ancestors = [0] ∧
    (preorderNext false twoChildren 0 initDFS).2.ancestors ≠
      (preorderNext false twoChildren 0
        (preorderNext false twoChildren 0 initDFS).2).2.ancestors := by
  refine ⟨?_, ?_, ?_, ?_⟩ <;> decide

/-- C5 amended: the values a yielded wrapper shows *at the moment of its
yield* are the expected snapshots, but the wrapper is a live view of the
engine's single internal ancestors array, not an immutable copy: on the
two-node tree the run records `(0, [])` then `(1, [0])`, while the engine's
array — aliased by both yielded instances — holds `[0]` after the second call
and is emptied again by the time the iterator reports done.  (The
`NodeWithBackPath` wrappers of the queue-based engines hold a parent pointer
set at construction and never written again by the engines.) -/
theorem c5_amended_live_view_behaviour :
    DFSWithMetadataRun twoChildren 0 10 = ([⟨some 0, []⟩, ⟨some 1, [0]⟩], true) ∧
    (preorderRunState false twoChildren 0 10 initDFS).ancestors = [] := by
  refine ⟨?_, ?_⟩ <;> decide

/-- C6 counterexample: the claim says that over one full traversal, postorder
calls the expansion function twice per non-leaf node.  On the two-node tree
(root `0` with one child), one full postorder traversal invokes `getChildren`
on the non-leaf root exactly once, not twice: `_topIteratorIsEmpty` re-pulls
the *stored* child iterator before popping, it does not call `getChildren`
again.  (The test suite's expected count of 2 arises from iterating the
iterable twice in a row.) -/
theorem c6_postorder_calls_once_per_nonleaf :
    ¬ ((postorderRunState false twoChildren 0 10 10 initDFS).calls.count 0 = 2) := by
  decide

/-- C6 amended: over one full traversal, preorder and postorder each call the
expansion function exactly once per reachable node — also for non-leaf nodes
under postorder.  Verified on the reference 11-node tree and on the two-node
counterexample tree: the log of expansion calls contains every node exactly
once. -/
theorem c6_amended_expansion_called_once_per_node :
    (preorderRunState false refChildren 0 20 initDFS).calls =
      [0, 1, 3, 4, 2, 5, 6, 7, 8, 9, 10] ∧
    ((postorderRunState false refChildren 0 20 20 initDFS).calls.count 0 = 1 ∧
      ∀ v ∈ [0, 1, 2, 3, 4, 5, 6, 7, 8, 9, 10],
        (postorderRunState false refChildren 0 20 20 initDFS).calls.count v = 1) ∧
    (postorderRunState false twoChildren 0 10 10 initDFS).calls = [0, 1] ∧
    (preorderRunState false twoChildren 0 10 initDFS).calls = [0, 1] := by
  refine ⟨?_, ⟨?_, ?_⟩, ?_, ?_⟩ <;> decide

theorem c6_amended_witness :
    (5 : Nat) ∈ [0, 1, 2, 3, 4, 5, 6, 7, 8, 9, 10] ∧
    (postorderRunState false refChildren 0 20 20 initDFS).calls.count 5 = 1 :=
  ⟨by decide, c6_amended_expansion_called_once_per_node.2.1.2 5 (by decide)⟩

/-- C7 counterexample: on the star graph with uniform edge cost 1, queue-based
BFS yields `0,1,2,3`, but Dijkstra yields `0,3,2,1`: after the root is
expanded the heap holds the three equal-cost entries in insertion order plus
the stale root entry, and `Heap.pop` moves the *last* array element to the
front, so equal-cost entries come out in an order that differs from FIFO.  The
claimed equality of output orders fails. -/
theorem c7_dijkstra_uniform_cost_order_differs :
    GraphBFSFastRun starAdj (some 0) 30 = ([0, 1, 2, 3], true) ∧
    (DjikstraRun starAdj (some 0) (fun _ _ => 1) 10 20).1.map (·.node) =
      [some 0, some 3, some 2, some 1] ∧
    (DjikstraRun starAdj (some 0) (fun _ _ => 1) 10 20).1.map (·.node) ≠
      (GraphBFSFastRun starAdj (some 0) 30).1.map some := by
  refine ⟨?_, ?_, ?_⟩ <;> decide

/-- On the stuck state, the lazy-deletion loop spins forever: every pop
returns the same already-visited entry and leaves the heap unchanged, so no
amount of fuel completes the loop. -/
theorem djSkipLoop_spins_on_stuck_state :
    ∀ sf : Nat, djSkipLoop sf dijkstraStuckState.heap dijkstraStuckState.visited =
      (none, dijkstraStuckState.heap, true) := by
  intro sf
  induction sf with
  | zero => rfl
  | succ n ih =>
    show djSkipLoop (n + 1) [⟨0, ⟨some 0, []⟩⟩] [0] = _
    rw [djSkipLoop]
    have hpop : heapPop djSink [(⟨0, ⟨some 0, []⟩⟩ : DjikstraHeapNode)] =
        (some ⟨0, ⟨some 0, []⟩⟩, [⟨0, ⟨some 0, []⟩⟩]) := by decide
    rw [hpop]
    simpa using ih

/-- C2: the claim says every graph-mode traversal's iterator eventually
returns done.  On the single-node graph, the Dijkstra iterator yields node `0`
and then never returns done: its second `next` call loops forever re-popping
the visited seed entry, because `Heap.pop` fails to remove the last element of
a one-element heap.  Formally, for every amount of outer fuel and of fuel for
the lazy-deletion loop, the run never reports done. -/
theorem c2_dijkstra_never_returns_done :
    ∀ fuel skipFuel : Nat,
      (DjikstraRun oneNodeAdj (some 0) (fun _ _ => 1) fuel skipFuel).2 = false := by
  have hnext : ∀ sf, dijkstraNext oneNodeAdj (fun _ _ => 1) sf dijkstraStuckState =
      (none, { dijkstraStuckState with stuck := true }) := by
    intro sf
    show dijkstraNext _ _ sf dijkstraStuckState = _
    rw [dijkstraNext, djSkipLoop_spins_on_stuck_state sf]
  have hrun : ∀ f sf, dijkstraRunAux oneNodeAdj (fun _ _ => 1) sf f dijkstraStuckState =
      ([], false) := by
    intro f sf
    cases f with
    | zero => rfl
    | succ n =>
      rw [dijkstraRunAux, hnext sf]
      rfl
  intro fuel skipFuel
  cases fuel with
  | zero => rfl
  | succ n =>
    cases skipFuel with
    | zero => rfl
    | succ m =>
      have hfirst : dijkstraNext oneNodeAdj (fun _ _ => 1) (m + 1)
          (initDijkstra (some 0)) = (some ⟨some 0, []⟩, dijkstraStuckState) := by
        rw [dijkstraNext]
        have hskip : djSkipLoop (m + 1) (initDijkstra (some 0)).heap
            (initDijkstra (some 0)).visited =
            (some ⟨0, ⟨some 0, []⟩⟩, [⟨0, ⟨some 0, []⟩⟩], false) := by
          show djSkipLoop (m + 1) [⟨0, ⟨some 0, []⟩⟩] [] = _
          rw [djSkipLoop]
          have hpop : heapPop djSink [(⟨0, ⟨some 0, []⟩⟩ : DjikstraHeapNode)] =
              (some ⟨0, ⟨some 0, []⟩⟩, [⟨0, ⟨some 0, []⟩⟩]) := by decide
          rw [hpop]
          simp
        rw [hskip]
        rfl
      show (dijkstraRunAux oneNodeAdj (fun _ _ => 1) (m + 1) (n + 1)
              (initDijkstra (some 0))).2 = false
      rw [dijkstraRunAux, hfirst]
      simpa using congrArg Prod.snd (hrun n (m + 1))

/-- The head of a `dropWhile` result does not satisfy the predicate. -/
theorem head_of_dropWhile_false {α : Type} (p : α → Bool) :
    ∀ (l : List α) (c : α) (r : List α), l.dropWhile p = c :: r → p c = false := by
  intro l
  induction l with
  | nil => intro c r h; simp [List.dropWhile] at h
  | cons a t ih =>
    intro c r h
    rw [List.dropWhile_cons] at h
    by_cases hp : p a = true
    · rw [if_pos hp] at h
      exact ih c r h
    · rw [if_neg hp] at h
      cases h
      simpa using hp

/-- C4 counterexample: the claim says a candidate is added to the visited set
the moment the cycle-suppression filter offers it, not when it is later
dequeued.  On the diamond graph, after the first `next` (root yielded,
visited = `[0]`), the filter admits candidate `1`, yet the updated visited set
is still `[0]`: the filter as written (GraphNode.ts 956-962) inserts the
*parent* node, not the admitted candidate; the candidate is only inserted by
`next` itself when the value is dequeued and yielded (GraphNode.ts 984), after
which visited = `[1, 0]`. -/
theorem c4_filter_marks_parent_not_candidate :
    qbfsNext true diamondAdj 0 initQBFS =
      (some ⟨0, []⟩, ⟨[.root true, .kids ⟨0, []⟩ [1, 2]], [0], false⟩) ∧
    (qPull true 0 [0] (.kids ⟨0, []⟩ [1, 2])).1 = some ⟨1, [0]⟩ ∧
    (qPull true 0 [0] (.kids ⟨0, []⟩ [1, 2])).2.2 = [0] ∧
    1 ∉ (qPull true 0 [0] (.kids ⟨0, []⟩ [1, 2])).2.2 ∧
    (qbfsNext true diamondAdj 0
        ⟨[.root true, .kids ⟨0, []⟩ [1, 2]], [0], false⟩).2.visited = [1, 0] := by
  refine ⟨?_, ?_, ?_, ?_, ?_⟩ <;> decide

/-- C4 amended: in queue-based breadth-first graph traversal, a successful
pull through the cycle-suppression filter admits only a candidate that is not
yet visited, and inserts the *parent* node (a no-op once the parent has been
yielded) — the candidate itself is added to the visited set when `next`
dequeues and yields it.  Because the children iterators are evaluated lazily,
the offer and the dequeue coincide, so each node is still yielded at most once
even with multiple in-flight parents (diamond graph: `0,1,2,3`, done). -/
theorem c4_amended_mark_on_dequeue_semantics :
    (∀ (root : Nat) (visited : List Nat) (p : NodeWithBackPath) (rem : List Nat)
       (bp : NodeWithBackPath) (e' : QEntry) (vis' : List Nat),
      qPull true root visited (.kids p rem) = (some bp, e', vis') →
      bp.node ∉ visited ∧ vis' = visited.insert p.node) ∧
    (∀ (conns : Nat → Option (List Nat)) (root : Nat) (s : QBFSState)
       (bp : NodeWithBackPath) (s' : QBFSState),
      qbfsNext true conns root s = (some bp, s') → bp.node ∈ s'.visited) ∧
    GraphBFSFastRun diamondAdj (some 0) 20 = ([0, 1, 2, 3], true) := by
  refine ⟨?_, ?_, by decide⟩
  · intro root visited p rem bp e' vis' h
    rw [qPull] at h
    cases hd : rem.dropWhile (fun x => decide (x ∈ visited)) with
    | nil => rw [hd] at h; cases h
    | cons c r =>
      rw [hd] at h
      simp at h
      obtain ⟨hbp, -, hvis⟩ := h
      constructor
      · have hc := head_of_dropWhile_false (fun x => decide (x ∈ visited)) rem c r hd
        have hn : bp.node = c := by rw [← hbp]
        rw [hn]
        simpa using hc
      · exact hvis.symm
  · intro conns root s bp s' h
    rw [qbfsNext] at h
    rcases hq : qPullLoop true root (s.queue.length + 1) s with ⟨r, s₁⟩
    rw [hq] at h
    cases r with
    | none => cases h
    | some bp₀ =>
      simp at h
      obtain ⟨hbp, hs'⟩ := h
      rw [← hs', ← hbp]
      cases conns bp₀.node with
      | none => exact List.mem_insert_self _ _
      | some l => exact List.mem_insert_self _ _

/-- Witness for the amended C4 theorem: its general parts applied at the
concrete diamond-graph state reached after the root is yielded. -/
theorem c4_amended_witness :
    ((1 : Nat) ∉ [0] ∧ [0] = List.insert 0 [0]) ∧ (1 : Nat) ∈ [1, 0] := by
  refine ⟨c4_amended_mark_on_dequeue_semantics.1 0 [0] ⟨0, []⟩ [1, 2] ⟨1, [0]⟩
            (.kids ⟨0, []⟩ [2]) [0] (by decide), ?_⟩
  exact c4_amended_mark_on_dequeue_semantics.2.1 diamondAdj 0
    ⟨[.root true, .kids ⟨0, []⟩ [1, 2]], [0], false⟩ ⟨1, [0]⟩
    ⟨[.kids ⟨0, []⟩ [2], .kids ⟨1, [0]⟩ [3]], [1, 0], false⟩ (by decide)

/-!
## C10: in-order never yields a root that has only a right child
-/

theorem BTree.size_getLeft_lt {b t : BTree} (h : b.getLeft = some t) :
    t.size < b.size := by
  cases b with
  | nil => simp [BTree.getLeft] at h
  | node v l r =>
    cases l with
    | nil => simp [BTree.getLeft] at h
    | node w ll lr =>
      have h' : some (BTree.node w ll lr) = some t := h
      cases h'
      simp [BTree.size]
      omega

theorem BTree.size_getRight_lt {b t : BTree} (h : b.getRight = some t) :
    t.size < b.size := by
  cases b with
  | nil => simp [BTree.getRight] at h
  | node v l r =>
    cases r with
    | nil => simp [BTree.getRight] at h
    | node w rl rr =>
      have h' : some (BTree.node w rl rr) = some t := h
      cases h'
      simp [BTree.size]
      omega

theorem inOrderMoveLeft_rootInv {b : BTree} {s : InOrderState}
    (h : InOrderRootInv b s) : InOrderRootInv b (inOrderMoveLeft s).2 := by
  rcases h with h | ⟨fs, hst, hsz⟩
  · rw [inOrderMoveLeft, h]
    exact Or.inl h
  · rw [inOrderMoveLeft, hst]
    cases fs with
    | nil =>
      simp only [List.nil_append]
      cases hl : BTree.getLeft b with
      | none => exact Or.inr ⟨[], by simp, by simp⟩
      | some t =>
        refine Or.inr ⟨[⟨t, false, false⟩], by simp, ?_⟩
        intro f hf
        rcases List.mem_singleton.mp hf with rfl
        exact BTree.size_getLeft_lt hl
    | cons f₀ fs' =>
      simp only [List.cons_append]
      have hf₀ : f₀.node.size < b.size := hsz f₀ (List.mem_cons_self _ _)
      cases hl : BTree.getLeft f₀.node with
      | none =>
        refine Or.inr ⟨{ f₀ with hasGoneLeft := true } :: fs', by simp, ?_⟩
        intro f hf
        rcases List.mem_cons.mp hf with rfl | hf
        · exact hf₀
        · exact hsz f (List.mem_cons_of_mem _ hf)
      | some t =>
        refine Or.inr ⟨⟨t, false, false⟩ :: { f₀ with hasGoneLeft := true } :: fs',
          by simp, ?_⟩
        intro f hf
        rcases List.mem_cons.mp hf with rfl | hf
        · exact lt_trans (BTree.size_getLeft_lt hl) hf₀
        · rcases List.mem_cons.mp hf with rfl | hf
          · exact hf₀
          · exact hsz f (List.mem_cons_of_mem _ hf)

theorem inOrderMoveRight_rootInv {b : BTree} {s : InOrderState}
    (h : InOrderRootInv b s) : InOrderRootInv b (inOrderMoveRight s).2 := by
  rcases h with h | ⟨fs, hst, hsz⟩
  · rw [inOrderMoveRight, h]
    exact Or.inl h
  · rw [inOrderMoveRight, hst]
    cases fs with
    | nil =>
      simp only [List.nil_append]
      cases hl : BTree.getRight b with
      | none => exact Or.inr ⟨[], by simp, by simp⟩
      | some t =>
        refine Or.inr ⟨[⟨t, false, false⟩], by simp, ?_⟩
        intro f hf
        rcases List.mem_singleton.mp hf with rfl
        exact BTree.size_getRight_lt hl
    | cons f₀ fs' =>
      simp only [List.cons_append]
      have hf₀ : f₀.node.size < b.size := hsz f₀ (List.mem_cons_self _ _)
      cases hl : BTree.getRight f₀.node with
      | none =>
        refine Or.inr ⟨{ f₀ with hasGoneRight := true } :: fs', by simp, ?_⟩
        intro f hf
        rcases List.mem_cons.mp hf with rfl | hf
        · exact hf₀
        · exact hsz f (List.mem_cons_of_mem _ hf)
      | some t =>
        refine Or.inr ⟨⟨t, false, false⟩ :: { f₀ with hasGoneRight := true } :: fs',
          by simp, ?_⟩
        intro f hf
        rcases List.mem_cons.mp hf with rfl | hf
        · exact lt_trans (BTree.size_getRight_lt hl) hf₀
        · rcases List.mem_cons.mp hf with rfl | hf
          · exact hf₀
          · exact hsz f (List.mem_cons_of_mem _ hf)

theorem inOrderLeftLoop_rootInv {b : BTree} :
    ∀ (fuel : Nat) (s : InOrderState), InOrderRootInv b s →
      InOrderRootInv b (inOrderLeftLoop fuel s).2 := by
  intro fuel
  induction fuel with
  | zero =>
    intro s h
    rcases h with h | ⟨fs, hst, hsz⟩
    · exact Or.inl h
    · exact Or.inr ⟨fs, hst, hsz⟩
  | succ n ih =>
    intro s h
    rw [inOrderLeftLoop]
    rcases hstk : s.stack with _ | ⟨f, rest⟩
    · simpa [hstk] using h
    · simp only
      by_cases hgl : f.hasGoneLeft
      · simpa [hgl] using h
      · simp only [hgl, Bool.false_eq_true, if_neg]
        rcases hmv : inOrderMoveLeft s with ⟨mv, s'⟩
        have hs' : InOrderRootInv b s' := by
          have := inOrderMoveLeft_rootInv (b := b) (s := s) h
          rwa [hmv] at this
        cases mv with
        | false => simpa using hs'
        | true =>
          simp only
          rcases hll : inOrderLeftLoop n s' with ⟨mv₂, s''⟩
          have := ih s' hs'
          rw [hll] at this
          simpa using this

theorem inOrderPopLoop_rootInv {b : BTree} :
    ∀ (fuel : Nat) (s : InOrderState), InOrderRootInv b s →
      InOrderRootInv b (inOrderPopLoop fuel s).2 := by
  intro fuel
  induction fuel with
  | zero =>
    intro s h
    rcases h with h | ⟨fs, hst, hsz⟩
    · exact Or.inl h
    · exact Or.inr ⟨fs, hst, hsz⟩
  | succ n ih =>
    intro s h
    rcases hstk : s.stack with _ | ⟨⟨n₀, gl₀, gr₀⟩, rest⟩
    · rw [inOrderPopLoop, hstk]
      exact h
    · rw [inOrderPopLoop, hstk]
      cases gl₀ with
      | false => exact h
      | true =>
        cases gr₀ with
        | false => exact h
        | true =>
          have hrest : InOrderRootInv b
              { s with stack := rest, ancestors := s.ancestors.dropLast } := by
            rcases h with h | ⟨fs, hst, hsz⟩
            · rw [h] at hstk; cases hstk
            · rcases fs with _ | ⟨f₀, fs'⟩
              · simp only [List.nil_append] at hst
                rw [hst] at hstk
                cases hstk
                exact Or.inl rfl
              · rw [hst] at hstk
                simp only [List.cons_append, List.cons.injEq] at hstk
                obtain ⟨-, hrest'⟩ := hstk
                exact Or.inr ⟨fs', by simp [hrest'],
                  fun f hf => hsz f (List.mem_cons_of_mem _ hf)⟩
          have hres := ih _ hrest
          rcases hl : inOrderPopLoop n
              { s with stack := rest, ancestors := s.ancestors.dropLast } with ⟨mv, s'⟩
          rw [hl] at hres
          simpa [hl] using hres

/-- Core step lemma: from an invariant state, one `next` preserves the
invariant and can only yield trees strictly smaller than the root. -/
theorem inOrderNextAux_rootInv {b : BTree} :
    ∀ (fuel : Nat) (m : Bool) (s : InOrderState), InOrderRootInv b s →
      InOrderRootInv b (inOrderNextAux fuel m s).2 ∧
      (∀ y, (inOrderNextAux fuel m s).1 = some y → y.node.size < b.size) := by
  intro fuel
  induction fuel with
  | zero =>
    intro m s h
    refine ⟨?_, ?_⟩
    · rcases h with h | ⟨fs, hst, hsz⟩
      · exact Or.inl h
      · exact Or.inr ⟨fs, hst, hsz⟩
    · intro y hy
      simp [inOrderNextAux] at hy
  | succ n ih =>
    intro m s h
    rw [inOrderNextAux]
    rcases hstk : s.stack with _ | ⟨f, rest⟩
    · refine ⟨?_, fun y hy => by simp at hy⟩
      rcases h with h | ⟨fs, hst, hsz⟩
      · exact Or.inl h
      · exact Or.inr ⟨fs, hst, hsz⟩
    · dsimp only
      cases hfl : (f.hasGoneLeft && f.hasGoneRight) with
      | true =>
        exact ⟨h, fun y hy => by simp at hy⟩
      | false =>
        rcases hll : inOrderLeftLoop (n + 1) s with ⟨lmv, s₁⟩
        have hs₁ : InOrderRootInv b s₁ := by
          have hinv := inOrderLeftLoop_rootInv (b := b) (n + 1) s h
          rwa [hll] at hinv
        dsimp only
        cases hstuck : s₁.stuck with
        | true =>
          exact ⟨hs₁, fun y hy => by simp at hy⟩
        | false =>
          rcases hstk₁ : s₁.stack with _ | ⟨g, rest₁⟩
          · exact ⟨hs₁, fun y hy => by simp at hy⟩
          · dsimp only
            cases hyld : ((m || lmv) && !g.hasGoneRight) with
            | true =>
              refine ⟨hs₁, ?_⟩
              intro y hy
              cases hy
              rcases hs₁ with h₁ | ⟨fs, hst, hsz⟩
              · rw [h₁] at hstk₁; cases hstk₁
              · rcases fs with _ | ⟨f₀, fs'⟩
                · simp only [List.nil_append] at hst
                  rw [hst] at hstk₁
                  cases hstk₁
                  simp at hyld
                · rw [hst] at hstk₁
                  simp only [List.cons_append, List.cons.injEq] at hstk₁
                  obtain ⟨hfg, -⟩ := hstk₁
                  show g.node.size < b.size
                  rw [← hfg]
                  exact hsz f₀ (List.mem_cons_self _ _)
            | false =>
              rcases hmr : (if !g.hasGoneRight then inOrderMoveRight s₁
                            else ((m || lmv), s₁)) with ⟨m₂, s₂⟩
              have hs₂ : InOrderRootInv b s₂ := by
                by_cases hgr : (!g.hasGoneRight) = true
                · rw [if_pos hgr] at hmr
                  have hinv := inOrderMoveRight_rootInv (b := b) (s := s₁) hs₁
                  rwa [hmr] at hinv
                · rw [if_neg hgr] at hmr
                  cases hmr
                  exact hs₁
              dsimp only
              rcases hpl : (if !m₂ then inOrderPopLoop (n + 1) s₂
                            else (false, s₂)) with ⟨pmv, s₃⟩
              have hs₃ : InOrderRootInv b s₃ := by
                by_cases hm₂ : (!m₂) = true
                · rw [if_pos hm₂] at hpl
                  have hinv := inOrderPopLoop_rootInv (b := b) (n + 1) s₂ hs₂
                  rwa [hpl] at hinv
                · rw [if_neg hm₂] at hpl
                  cases hpl
                  exact hs₂
              dsimp only
              cases hstuck₃ : s₃.stuck with
              | true =>
                exact ⟨hs₃, fun y hy => by simp at hy⟩
              | false =>
                exact ih (m₂ || pmv) s₃ hs₃

/-- Driving the run from an invariant state never yields the root. -/
theorem inOrderRunAux_rootInv {b : BTree} :
    ∀ (fuel loopFuel : Nat) (s : InOrderState), InOrderRootInv b s →
      ∀ y ∈ (inOrderRunAux loopFuel fuel s).1, y.node.size < b.size := by
  intro fuel
  induction fuel with
  | zero => intro loopFuel s _ y hy; simp [inOrderRunAux] at hy
  | succ n ih =>
    intro loopFuel s h y hy
    rw [inOrderRunAux] at hy
    rcases hnx : inOrderNext loopFuel s with ⟨r, s'⟩
    have hstep := inOrderNextAux_rootInv (b := b) loopFuel false s h
    rw [inOrderNext] at hnx
    rw [hnx] at hstep
    rw [inOrderNext, hnx] at hy
    by_cases hstuck : s'.stuck
    · simp [hstuck] at hy
    · simp only [hstuck, Bool.false_eq_true, if_neg] at hy
      cases r with
      | none => simp at hy
      | some v =>
        simp only at hy
        rcases hrn : inOrderRunAux loopFuel n s' with ⟨out, d⟩
        rw [hrn] at hy
        rcases hy with _ | ⟨_, hy⟩
        · exact hstep.2 _ rfl
        · have := ih loopFuel s' hstep.1 y
          rw [hrn] at this
          exact this hy

/-- C10: for every binary tree whose root has no left child but does have a
right child, the DFS in-order traversal never yields the root node itself:
`_moveLeft` fails on the root after marking `hasGoneLeft`, so `moved` stays
false and no emission happens before `_moveRight` marks `hasGoneRight`;
afterwards the root's frame has both flags set, the emission guard
`moved && !hasGoneRight` can never fire on it, and every other frame holds a
proper (strictly smaller) subtree. -/
theorem c10_inorder_skips_root_without_left_child
    (b r : BTree) (hL : b.getLeft = none) (hR : b.getRight = some r)
    (fuel loopFuel : Nat) :
    ∀ y ∈ (DFSInOrderRun (some b) fuel loopFuel).1, y ≠ b := by
  intro y hy
  rw [DFSInOrderRun, DFSInOrderWithMetadataRun] at hy
  rcases hrn : inOrderRunAux loopFuel fuel (initInOrder b) with ⟨out, d⟩
  rw [hrn] at hy
  simp only [List.mem_map] at hy
  obtain ⟨m, hm, rfl⟩ := hy
  -- the first `next` turns the root frame into ⟨b, true, true⟩ and pushes the
  -- right child; afterwards the invariant carries the argument
  have hfirst : ∀ lf, inOrderNextAux (lf + 1) false (initInOrder b) =
      inOrderNextAux lf true ⟨[⟨r, false, false⟩, ⟨b, true, true⟩], [b], false⟩ := by
    intro lf
    rw [inOrderNextAux]
    simp [initInOrder, inOrderLeftLoop, inOrderMoveLeft, inOrderMoveRight, hL, hR]
  have hsize : ∀ y' ∈ out, y'.node.size < b.size := by
    intro y' hy'
    cases fuel with
    | zero => rw [inOrderRunAux] at hrn; cases hrn; simp at hy'
    | succ nf =>
      cases loopFuel with
      | zero =>
        have hz : inOrderRunAux 0 (nf + 1) (initInOrder b) = ([], false) := rfl
        rw [hz] at hrn
        cases hrn
        simp at hy'
      | succ lf =>
        have hinv : InOrderRootInv b
            ⟨[⟨r, false, false⟩, ⟨b, true, true⟩], [b], false⟩ := by
          refine Or.inr ⟨[⟨r, false, false⟩], rfl, ?_⟩
          intro f hf
          rcases List.mem_singleton.mp hf with rfl
          exact BTree.size_getRight_lt hR
        rw [inOrderRunAux] at hrn
        rcases hnx : inOrderNext (lf + 1) (initInOrder b) with ⟨rr, s'⟩
        have hnx' : inOrderNext (lf + 1) (initInOrder b) =
            inOrderNextAux lf true ⟨[⟨r, false, false⟩, ⟨b, true, true⟩], [b], false⟩ := by
          rw [inOrderNext, hfirst lf]
        have hstep := inOrderNextAux_rootInv (b := b) lf true
          ⟨[⟨r, false, false⟩, ⟨b, true, true⟩], [b], false⟩ hinv
        rw [← hnx', hnx] at hstep
        rw [hnx] at hrn
        by_cases hstuck : s'.stuck
        · simp only [hstuck, if_pos] at hrn
          cases hrn
          simp at hy'
        · simp only [hstuck, Bool.false_eq_true, if_neg] at hrn
          cases rr with
          | none => cases hrn; simp at hy'
          | some v =>
            simp only at hrn
            rcases hrn₂ : inOrderRunAux (lf + 1) nf s' with ⟨out₂, d₂⟩
            rw [hrn₂] at hrn
            cases hrn
            rcases List.mem_cons.mp hy' with rfl | hy₂
            · exact hstep.2 y' rfl
            · have := inOrderRunAux_rootInv (b := b) nf (lf + 1) s' hstep.1 y'
              rw [hrn₂] at this
              exact this hy₂
  intro hcontra
  have := hsize m hm
  rw [hcontra] at this
  exact Nat.lt_irrefl _ this

/-- Witness for C10: the two-node shape (root 0 with only right child 1); the
traversal yields `[1]`, which does not contain the root. -/
theorem c10_witness :
    BTree.node 1 BTree.nil BTree.nil ∈
      (DFSInOrderRun (some (.node 0 .nil (.node 1 .nil .nil))) 10 10).1 ∧
    BTree.node 1 BTree.nil BTree.nil ≠ BTree.node 0 BTree.nil (BTree.node 1 BTree.nil BTree.nil) :=
  ⟨by decide,
   c10_inorder_skips_root_without_left_child (.node 0 .nil (.node 1 .nil .nil))
     (.node 1 .nil .nil) (by decide) (by decide) 10 10 (.node 1 .nil .nil) (by decide)⟩

/-- C8: A* is literally Dijkstra parameterized by the augmented edge-cost
function `costFn + heuristicFn` (first conjunct, definitional in the source:
`AStarIterable` builds the combined function and hands it to
`DjikstraIterator`), and consequently A* with an always-zero heuristic
produces exactly the same output as Dijkstra with the same cost function, for
every graph, root, cost function and fuel (second conjunct). -/
theorem c8_astar_is_dijkstra_with_augmented_cost :
    (∀ (adj : Nat → Option (List Nat)) (root : Option Nat) (costFn heuristicFn : CostFn)
       (fuel skipFuel : Nat),
      AStarRun adj root costFn heuristicFn fuel skipFuel =
        DjikstraRun adj root (fun a b => costFn a b + heuristicFn a b) fuel skipFuel) ∧
    (∀ (adj : Nat → Option (List Nat)) (root : Option Nat) (costFn : CostFn)
       (fuel skipFuel : Nat),
      AStarRun adj root costFn (fun _ _ => 0) fuel skipFuel =
        DjikstraRun adj root costFn fuel skipFuel) := by
  constructor
  · intro adj root costFn heuristicFn fuel skipFuel
    rfl
  · intro adj root costFn fuel skipFuel
    show DjikstraRun adj root (fun a b => costFn a b + 0) fuel skipFuel = _
    have h : (fun a b => costFn a b + 0) = costFn := by
      funext a b
      exact add_zero _
    rw [h]

/-- C3 counterexample: the claim says every traversal kind, including
shortest-path, yields an empty sequence from an absent root.  But the
`Djikstra` method has no nullish-receiver guard: the iterator is seeded with
`{ totalCost: 0, NodeWithBackPath(absent root) }`, its `next` pops that entry,
skips marking and expansion (the node is absent) and still returns it — the
sequence is not empty (its first element wraps the absent node). -/
theorem c3_dijkstra_absent_root_yields_nonempty :
    (DjikstraRun (fun _ => some []) none (fun _ _ => 1) 1 2).1 ≠ [] := by
  decide

/-- C3 amended: every traversal entry point that guards its receiver against
null/undefined — preorder, postorder, both breadth-first strategies and
in-order, in both tree and graph mode, plus the explicitly guarded
`BFSFastWithMetadata` and `DFSInOrderWithMetadata` — yields the empty sequence
from an absent root; the shortest-path iterator instead yields elements whose
first is the back-path of the absent node itself (for any adjacency, cost
function and positive fuel). -/
theorem c3_absent_root_empty_except_shortest_path :
    (∀ (conns : Nat → Option (List Nat)) (fuel : Nat),
      DFSRun conns none fuel = ([], true) ∧
      BFSRun conns none fuel fuel = ([], true) ∧
      BFSFastRun conns none fuel = ([], true) ∧
      BFSFastWithMetadataEntry conns none fuel = ([], true) ∧
      GraphDFSRun conns none fuel = ([], true) ∧
      GraphBFSRun conns none fuel fuel = ([], true) ∧
      GraphBFSFastRun conns none fuel = ([], true)) ∧
    (∀ (conns : Nat → Option (List Nat)) (fuel descentFuel : Nat),
      DFSPostorderRun conns none fuel descentFuel = ([], true) ∧
      GraphDFSPostorderRun conns none fuel descentFuel = ([], true)) ∧
    (∀ (fuel loopFuel : Nat),
      DFSInOrderRun none fuel loopFuel = ([], true) ∧
      DFSInOrderWithMetadataRun none fuel loopFuel = ([], true)) ∧
    (∀ (adj : Nat → Option (List Nat)) (costFn : CostFn) (fuel skipFuel : Nat),
      (DjikstraRun adj none costFn (fuel + 1) (skipFuel + 1)).1.head? =
        some ⟨none, []⟩) := by
  refine ⟨fun conns fuel => ⟨rfl, rfl, rfl, rfl, rfl, rfl, rfl⟩,
          fun conns fuel descentFuel => ⟨rfl, rfl⟩,
          fun fuel loopFuel => ⟨rfl, rfl⟩,
          fun adj costFn fuel skipFuel => ?_⟩
  simp [DjikstraRun, dijkstraRunAux, dijkstraNext, djSkipLoop, heapPop,
        heapifyDownAux, initDijkstra]


/-!
## C9: metadata depth and root-anchored ancestors

The invariant `DFSAncCore` ties the three mutable sequences of
`DepthFirstIterator` together: the ancestors array is the reverse of the
current-node stack minus its top, the bottom of the current-node stack is the
traversal root, and the bottom iterator of the iterator stack is the
single-shot root iterator (fresh or consumed).  `DFSAncEq`/`DFSAncLoose`
additionally record the stack-length synchronisation: the iterator stack and
the current-node stack have equal length at every rest point, and the iterator
stack is at most one longer transiently, right after a push. -/

theorem dropLast_reverse_tail {α : Type} (l : List α) :
    l.reverse.dropLast = l.tail.reverse := by
  cases l with
  | nil => rfl
  | cons h t => simp

theorem getLast?_cons_ne {α : Type} (a : α) {l : List α} (h : l ≠ []) :
    (a :: l).getLast? = l.getLast? := by
  cases l with
  | nil => exact absurd rfl h
  | cons b t => exact List.getLast?_cons_cons

theorem tryToPushIterator_anc {root : Nat} {s : DFSState} (check : Bool)
    (conns : Nat → Option (List Nat)) (h : DFSAncEq root s) :
    ((tryToPushIterator check conns root s).1 = true →
      DFSAncLoose root (tryToPushIterator check conns root s).2) ∧
    ((tryToPushIterator check conns root s).1 = false →
      DFSAncEq root (tryToPushIterator check conns root s).2) := by
  obtain ⟨⟨hsync, hlast, hseed⟩, hlen⟩ := h
  rcases hres : tryToPushIterator check conns root s with ⟨b, s₂⟩
  rw [tryToPushIterator] at hres
  cases hemp : s.stack.isEmpty with
  | true =>
    rw [List.isEmpty_iff] at hemp
    simp only [hemp, List.isEmpty_nil, if_pos, Prod.mk.injEq] at hres
    obtain ⟨hb, hs⟩ := hres
    subst hb; subst hs
    refine ⟨fun _ => ⟨⟨hsync, hlast, ?_⟩, ?_⟩, fun hco => by simp at hco⟩
    · intro _
      left
      simp
    · right
      rw [hemp] at hlen
      simp at hlen
      simp [← hlen]
  | false =>
    rw [Bool.eq_false_iff, Ne, List.isEmpty_iff] at hemp
    rw [if_neg (by simpa using hemp)] at hres
    rcases hhd : s.current.head? with _ | c
    · rw [hhd] at hres
      simp only [Prod.mk.injEq] at hres
      obtain ⟨hb, hs⟩ := hres
      subst hb; subst hs
      exact ⟨fun hco => by simp at hco, fun _ => ⟨⟨hsync, hlast, hseed⟩, hlen⟩⟩
    · rw [hhd] at hres
      dsimp only at hres
      rcases hcn : conns c with _ | l
      · rw [hcn] at hres
        simp only [Prod.mk.injEq] at hres
        obtain ⟨hb, hs⟩ := hres
        subst hb; subst hs
        exact ⟨fun hco => by simp at hco, fun _ => ⟨⟨hsync, hlast, hseed⟩, hlen⟩⟩
      · rw [hcn] at hres
        simp only [Prod.mk.injEq] at hres
        obtain ⟨hb, hs⟩ := hres
        subst hb; subst hs
        refine ⟨fun _ => ⟨⟨hsync, hlast, ?_⟩, ?_⟩, fun hco => by simp at hco⟩
        · intro _
          rw [getLast?_cons_ne _ hemp]
          exact hseed hemp
        · right
          simp [hlen]

theorem popTopIterator_anc {root : Nat} {s : DFSState} (h : DFSAncLoose root s) :
    DFSAncEq root (popTopIterator s) := by
  obtain ⟨⟨hsync, hlast, hseed⟩, hlen⟩ := h
  rw [popTopIterator]
  by_cases hc : s.current.length = s.stack.length
  · rw [if_pos hc]
    refine ⟨⟨?_, ?_, ?_⟩, ?_⟩
    · show s.ancestors.dropLast = s.current.tail.tail.reverse
      rw [hsync, dropLast_reverse_tail]
    · show s.current.tail ≠ [] → s.current.tail.getLast? = some root
      intro ht
      rcases hcur : s.current with _ | ⟨c, t⟩
      · rw [hcur] at ht; exact absurd rfl ht
      · rw [hcur] at ht
        show t.getLast? = some root
        have h1 := hlast (by rw [hcur]; exact List.cons_ne_nil c t)
        rw [hcur] at h1
        rw [← getLast?_cons_ne c (by simpa using ht)]
        exact h1
    · show s.stack.tail ≠ [] → _
      intro ht
      rcases hstk : s.stack with _ | ⟨e, r⟩
      · rw [hstk] at ht; exact absurd rfl ht
      · rw [hstk] at ht
        show r.getLast? = some (false, [root]) ∨ r.getLast? = some (false, [])
        have h1 := hseed (by rw [hstk]; exact List.cons_ne_nil e r)
        rw [hstk] at h1
        rw [← getLast?_cons_ne e (by simpa using ht)]
        exact h1
    · show s.stack.tail.length = s.current.tail.length
      simp [hc]
  · rw [if_neg hc]
    have hlen' : s.stack.length = s.current.length + 1 := by
      rcases hlen with hlen | hlen
      · exact absurd hlen.symm hc
      · exact hlen
    refine ⟨⟨hsync, hlast, ?_⟩, ?_⟩
    · show s.stack.tail ≠ [] → _
      intro ht
      rcases hstk : s.stack with _ | ⟨e, r⟩
      · rw [hstk] at ht; exact absurd rfl ht
      · rw [hstk] at ht
        show r.getLast? = some (false, [root]) ∨ r.getLast? = some (false, [])
        have h1 := hseed (by rw [hstk]; exact List.cons_ne_nil e r)
        rw [hstk] at h1
        rw [← getLast?_cons_ne e (by simpa using ht)]
        exact h1
    · show s.stack.tail.length = s.current.length
      simp [hlen']


theorem topIteratorIsEmpty_anc {root : Nat} {s : DFSState} (check : Bool)
    (h : DFSAncLoose root s) :
    ((topIteratorIsEmpty check s).1 = true →
      DFSAncLoose root (topIteratorIsEmpty check s).2) ∧
    ((topIteratorIsEmpty check s).1 = false →
      DFSAncEq root (topIteratorIsEmpty check s).2) := by
  obtain ⟨⟨hsync, hlast, hseed⟩, hlen⟩ := h
  rcases hres : topIteratorIsEmpty check s with ⟨b, s₂⟩
  rw [topIteratorIsEmpty] at hres
  rcases hstk : s.stack with _ | ⟨⟨filt, rem⟩, rest⟩
  · rw [hstk] at hres
    dsimp only at hres
    injection hres with hb hs
    subst hb; subst hs
    refine ⟨fun hco => by simp at hco, fun _ => ⟨⟨hsync, hlast, hseed⟩, ?_⟩⟩
    rcases hlen with hlen | hlen
    · exact hlen
    · rw [hstk] at hlen; simp at hlen
  · rw [hstk] at hres
    dsimp only at hres
    rcases hD : (if check && filt then rem.dropWhile (fun x => decide (x ∈ s.visited))
                 else rem) with _ | ⟨v, rem'⟩
    · rw [hD] at hres
      dsimp only at hres
      injection hres with hb hs
      subst hb; subst hs
      refine ⟨fun _ => ⟨⟨hsync, hlast, ?_⟩, ?_⟩, fun hco => by simp at hco⟩
      · intro _
        rcases hrest : rest with _ | ⟨e₀, r₀⟩
        · have h1 := hseed (by rw [hstk]; simp)
          rw [hstk, hrest] at h1
          simp only [List.getLast?_singleton, Option.some.injEq, Prod.mk.injEq] at h1
          have hf : filt = false := by
            rcases h1 with ⟨h1, -⟩ | ⟨h1, -⟩ <;> exact h1
          right
          show ((filt, ([] : List Nat)) :: ([] : List (Bool × List Nat))).getLast? =
            some (false, [])
          simp [hf]
        · have h1 := hseed (by rw [hstk]; simp)
          rw [hstk, hrest] at h1
          rw [getLast?_cons_ne _ (List.cons_ne_nil e₀ r₀)] at h1
          show ((filt, ([] : List Nat)) :: e₀ :: r₀).getLast? = _ ∨
            ((filt, ([] : List Nat)) :: e₀ :: r₀).getLast? = _
          rw [getLast?_cons_ne _ (List.cons_ne_nil e₀ r₀)]
          exact h1
      · rw [hstk] at hlen
        simpa using hlen
    · rw [hD] at hres
      dsimp only at hres
      rcases hcur : s.current with _ | ⟨c, t⟩
      · rw [hcur] at hres
        rw [if_neg (by simp)] at hres
        simp only [List.head?_nil] at hres
        injection hres with hb hs
        subst hb; subst hs
        rw [hstk, hcur] at hlen
        simp only [List.length_cons, List.length_nil] at hlen
        have hrest : rest = [] := by
          rcases hlen with hlen | hlen
          · exact absurd hlen (by simp)
          · have h0 : rest.length = 0 := by omega
            exact List.length_eq_zero.mp h0
        have h1 := hseed (by rw [hstk]; simp)
        rw [hstk, hrest] at h1
        simp only [List.getLast?_singleton, Option.some.injEq, Prod.mk.injEq] at h1
        have hf : filt = false := by
          rcases h1 with ⟨h1, -⟩ | ⟨h1, -⟩ <;> exact h1
        have hrem : rem = [root] := by
          rcases h1 with ⟨-, h1⟩ | ⟨-, h1⟩
          · exact h1
          · rw [hf] at hD; simp at hD; rw [h1] at hD; simp at hD
        have hv : v = root ∧ rem' = [] := by
          rw [hf] at hD; simp at hD; rw [hrem] at hD
          exact ⟨(List.cons.injEq _ _ _ _ ▸ hD).1.symm,
                 (List.cons.injEq _ _ _ _ ▸ hD).2.symm⟩
        refine ⟨fun hco => by simp at hco, fun _ => ⟨⟨?_, ?_, ?_⟩, ?_⟩⟩
        · show s.ancestors = ([v] : List Nat).tail.reverse
          rw [hsync, hcur]
          rfl
        · intro _
          show ([v] : List Nat).getLast? = some root
          rw [hv.1]
          simp
        · intro _
          show ((filt, rem') :: rest).getLast? = _ ∨ ((filt, rem') :: rest).getLast? = _
          rw [hrest, hf, hv.2]
          right
          simp
        · show ((filt, rem') :: rest).length = ([v] : List Nat).length
          rw [hrest]
          simp
      · rw [hcur] at hres
        by_cases hlc : t.length = rest.length
        · rw [if_pos (by simp [hlc])] at hres
          dsimp only at hres
          rcases ht : t with _ | ⟨t₀, t'⟩
          · rw [ht] at hres
            simp only [List.tail_cons, List.head?_nil] at hres
            injection hres with hb hs
            subst hb; subst hs
            rw [ht] at hlc
            have hrest : rest = [] := by
              have h0 : rest.length = 0 := by
                simp only [List.length_nil] at hlc
                omega
              exact List.length_eq_zero.mp h0
            have h1 := hseed (by rw [hstk]; simp)
            rw [hstk, hrest] at h1
            simp only [List.getLast?_singleton, Option.some.injEq, Prod.mk.injEq] at h1
            have hf : filt = false := by
              rcases h1 with ⟨h1, -⟩ | ⟨h1, -⟩ <;> exact h1
            have hrem : rem = [root] := by
              rcases h1 with ⟨-, h1⟩ | ⟨-, h1⟩
              · exact h1
              · rw [hf] at hD; simp at hD; rw [h1] at hD; simp at hD
            have hv : v = root ∧ rem' = [] := by
              rw [hf] at hD; simp at hD; rw [hrem] at hD
              exact ⟨(List.cons.injEq _ _ _ _ ▸ hD).1.symm,
                     (List.cons.injEq _ _ _ _ ▸ hD).2.symm⟩
            refine ⟨fun hco => by simp at hco, fun _ => ⟨⟨?_, ?_, ?_⟩, ?_⟩⟩
            · show s.ancestors.dropLast = ([v] : List Nat).tail.reverse
              rw [hsync, hcur, ht]
              rfl
            · intro _
              show ([v] : List Nat).getLast? = some root
              rw [hv.1]
              simp
            · intro _
              show ((filt, rem') :: rest).getLast? = _ ∨ ((filt, rem') :: rest).getLast? = _
              rw [hrest, hf, hv.2]
              right
              simp
            · show ((filt, rem') :: rest).length = ([v] : List Nat).length
              rw [hrest]
              simp
          · rw [ht] at hres
            simp only [List.tail_cons, List.head?_cons] at hres
            injection hres with hb hs
            subst hb; subst hs
            refine ⟨fun hco => by simp at hco, fun _ => ⟨⟨?_, ?_, ?_⟩, ?_⟩⟩
            · show s.ancestors.dropLast ++ [t₀] = (v :: t₀ :: t').tail.reverse
              rw [hsync, hcur, ht]
              show ((t₀ :: t').reverse).dropLast ++ [t₀] = (t₀ :: t').reverse
              rw [dropLast_reverse_tail]
              simp
            · intro _
              show (v :: t₀ :: t').getLast? = some root
              rw [getLast?_cons_ne _ (List.cons_ne_nil t₀ t')]
              have h1 := hlast (by rw [hcur]; exact List.cons_ne_nil c t)
              rw [hcur, ht] at h1
              rw [← getLast?_cons_ne c (List.cons_ne_nil t₀ t')]
              exact h1
            · intro _
              show ((filt, rem') :: rest).getLast? = _ ∨ ((filt, rem') :: rest).getLast? = _
              rcases hrest : rest with _ | ⟨e₀, r₀⟩
              · have h1 := hseed (by rw [hstk]; simp)
                rw [hstk, hrest] at h1
                simp only [List.getLast?_singleton, Option.some.injEq, Prod.mk.injEq] at h1
                have hf : filt = false := by
                  rcases h1 with ⟨h1, -⟩ | ⟨h1, -⟩ <;> exact h1
                have hrem : rem = [root] := by
                  rcases h1 with ⟨-, h1⟩ | ⟨-, h1⟩
                  · exact h1
                  · rw [hf] at hD; simp at hD; rw [h1] at hD; simp at hD
                have hre : rem' = [] := by
                  rw [hf] at hD; simp at hD; rw [hrem] at hD
                  exact ((List.cons.injEq _ _ _ _ ▸ hD).2).symm
                rw [hf, hre]
                right
                simp
              · have h1 := hseed (by rw [hstk]; simp)
                rw [hstk, hrest] at h1
                rw [getLast?_cons_ne _ (List.cons_ne_nil e₀ r₀)] at h1
                rw [getLast?_cons_ne _ (List.cons_ne_nil e₀ r₀)]
                exact h1
            · show ((filt, rem') :: rest).length = (v :: t₀ :: t').length
              rw [ht] at hlc
              simp only [List.length_cons] at hlc ⊢
              omega
        · rw [if_neg (by simp [hlc])] at hres
          simp only [List.head?_cons] at hres
          injection hres with hb hs
          subst hb; subst hs
          have hlen' : rest.length = t.length + 1 := by
            rw [hstk, hcur] at hlen
            simp only [List.length_cons] at hlen
            rcases hlen with hlen | hlen
            · exact absurd (by omega : t.length = rest.length) hlc
            · omega
          refine ⟨fun hco => by simp at hco, fun _ => ⟨⟨?_, ?_, ?_⟩, ?_⟩⟩
          · show s.ancestors ++ [c] = (v :: c :: t).tail.reverse
            rw [hsync, hcur]
            simp
          · intro _
            show (v :: c :: t).getLast? = some root
            rw [getLast?_cons_ne _ (List.cons_ne_nil c t)]
            have h1 := hlast (by rw [hcur]; exact List.cons_ne_nil c t)
            rw [hcur] at h1
            exact h1
          · intro _
            show ((filt, rem') :: rest).getLast? = _ ∨ ((filt, rem') :: rest).getLast? = _
            rcases hrest : rest with _ | ⟨e₀, r₀⟩
            · rw [hrest] at hlen'; simp at hlen'
            · have h1 := hseed (by rw [hstk]; simp)
              rw [hstk, hrest] at h1
              rw [getLast?_cons_ne _ (List.cons_ne_nil e₀ r₀)] at h1
              rw [getLast?_cons_ne _ (List.cons_ne_nil e₀ r₀)]
              exact h1
          · show ((filt, rem') :: rest).length = (v :: c :: t).length
            simp only [List.length_cons]
            omega


theorem DFSAncEq.toLoose {root : Nat} {s : DFSState} (h : DFSAncEq root s) :
    DFSAncLoose root s :=
  ⟨h.1, Or.inl h.2⟩

/-- At any state satisfying the core invariant, a nonempty ancestors array
starts with the traversal root. -/
theorem DFSAncCore_yield {root : Nat} {s : DFSState} (h : DFSAncCore root s) :
    s.ancestors ≠ [] → s.ancestors.head? = some root := by
  intro hne
  obtain ⟨hsync, hlast, -⟩ := h
  rw [hsync] at hne ⊢
  rcases hcur : s.current with _ | ⟨c, t⟩
  · rw [hcur] at hne
    simp at hne
  · rw [hcur] at hne
    rcases t with _ | ⟨t₀, t'⟩
    · simp at hne
    · show (t₀ :: t').reverse.head? = some root
      rw [List.head?_reverse]
      have h1 := hlast (by rw [hcur]; exact List.cons_ne_nil c _)
      rw [hcur] at h1
      rw [← getLast?_cons_ne c (List.cons_ne_nil t₀ t')]
      exact h1

theorem popEmptyLoopAux_anc {root : Nat} (check : Bool) :
    ∀ (fuel : Nat) (s : DFSState), DFSAncLoose root s →
      (popEmptyLoopAux check fuel s).stuck = true ∨
        DFSAncEq root (popEmptyLoopAux check fuel s) := by
  intro fuel
  induction fuel with
  | zero => intro s _; left; rfl
  | succ n ih =>
    intro s h
    rw [popEmptyLoopAux]
    rcases hti : topIteratorIsEmpty check s with ⟨b, s'⟩
    have hstep := topIteratorIsEmpty_anc check h
    rw [hti] at hstep
    cases b with
    | true =>
      dsimp only
      exact ih (popTopIterator s') (popTopIterator_anc (hstep.1 rfl)).toLoose
    | false =>
      dsimp only
      right
      exact hstep.2 rfl

theorem preorderNext_anc {root : Nat} {s : DFSState} (check : Bool)
    (conns : Nat → Option (List Nat)) (h : DFSAncEq root s) :
    (preorderNext check conns root s).2.stuck = true ∨
      (DFSAncEq root (preorderNext check conns root s).2 ∧
       ∀ v, (preorderNext check conns root s).1 = some v →
         v.ancestors ≠ [] → v.ancestors.head? = some root) := by
  rcases hres : preorderNext check conns root s with ⟨r, s'⟩
  rw [preorderNext] at hres
  have h₁ : DFSAncLoose root (if (decide (s.maxDepth = some 0) && s.stack.isEmpty) ||
      (match s.maxDepth with
       | none => true
       | some d => decide (s.ancestors.length < d)) then
      (tryToPushIterator check conns root s).2
    else s) := by
    by_cases hc : ((decide (s.maxDepth = some 0) && s.stack.isEmpty) ||
      (match s.maxDepth with
       | none => true
       | some d => decide (s.ancestors.length < d))) = true
    · rw [if_pos hc]
      have hp := tryToPushIterator_anc check conns h
      cases hpp : (tryToPushIterator check conns root s).1 with
      | true => exact hp.1 hpp
      | false => exact (hp.2 hpp).toLoose
    · rw [if_neg hc]
      exact h.toLoose
  generalize hg : (if (decide (s.maxDepth = some 0) && s.stack.isEmpty) ||
      (match s.maxDepth with
       | none => true
       | some d => decide (s.ancestors.length < d)) then
      (tryToPushIterator check conns root s).2
    else s) = sMid at hres h₁
  rw [popEmptyLoop] at hres
  have h₂ := popEmptyLoopAux_anc check (sMid.stack.length + 1) sMid h₁
  generalize hg₂ : popEmptyLoopAux check (sMid.stack.length + 1) sMid = sPel at hres h₂
  rcases h₂ with h₂ | h₂
  · left
    by_cases hie : sPel.stack.isEmpty = true
    · rw [if_pos hie] at hres
      rw [if_pos (show ({ sPel with finished := true } : DFSState).finished = true from
        rfl)] at hres
      injection hres with hb hs
      subst hs
      exact h₂
    · rw [if_neg hie] at hres
      by_cases hf : sPel.finished = true
      · rw [if_pos hf] at hres
        injection hres with hb hs
        subst hs
        exact h₂
      · rw [if_neg hf] at hres
        injection hres with hb hs
        subst hs
        exact h₂
  · right
    by_cases hie : sPel.stack.isEmpty = true
    · rw [if_pos hie] at hres
      rw [if_pos (show ({ sPel with finished := true } : DFSState).finished = true from
        rfl)] at hres
      injection hres with hb hs
      subst hb; subst hs
      exact ⟨h₂, fun v hv => by simp at hv⟩
    · rw [if_neg hie] at hres
      by_cases hf : sPel.finished = true
      · rw [if_pos hf] at hres
        injection hres with hb hs
        subst hb; subst hs
        exact ⟨h₂, fun v hv => by simp at hv⟩
      · rw [if_neg hf] at hres
        injection hres with hb hs
        subst hb; subst hs
        refine ⟨h₂, fun v hv => ?_⟩
        have hv2 : (⟨sPel.current.head?, sPel.ancestors⟩ : NodeWithMetadata) = v :=
          Option.some.inj hv
        rw [← hv2]
        exact DFSAncCore_yield h₂.1

theorem preorderRunAux_anc {root : Nat} (check : Bool)
    (conns : Nat → Option (List Nat)) :
    ∀ (fuel : Nat) (s : DFSState), DFSAncEq root s →
      ∀ m ∈ (preorderRunAux check conns root fuel s).1,
        m.ancestors ≠ [] → m.ancestors.head? = some root := by
  intro fuel
  induction fuel with
  | zero => intro s _ m hm; simp [preorderRunAux] at hm
  | succ n ih =>
    intro s h m hm
    rw [preorderRunAux] at hm
    rcases hnx : preorderNext check conns root s with ⟨r, s'⟩
    have hstep := preorderNext_anc check conns h
    rw [hnx] at hstep
    rw [hnx] at hm
    dsimp only at hm
    by_cases hstuck : s'.stuck = true
    · simp [hstuck] at hm
    · simp only [hstuck, Bool.false_eq_true, if_neg] at hm
      rcases hstep with hstep | hstep
      · exact absurd hstep hstuck
      cases r with
      | none => simp at hm
      | some v =>
        rcases hrn : preorderRunAux check conns root n s' with ⟨out, d⟩
        rw [hrn] at hm
        rcases hm with _ | ⟨_, hm⟩
        · exact hstep.2 _ rfl
        · have := ih s' hstep.1 m
          rw [hrn] at this
          exact this hm

theorem postDescend_anc {root : Nat} (check : Bool) (conns : Nat → Option (List Nat)) :
    ∀ (fuel : Nat) (s : DFSState), DFSAncEq root s →
      (postDescend check conns root fuel s).stuck = true ∨
        DFSAncEq root (postDescend check conns root fuel s) := by
  intro fuel
  induction fuel with
  | zero => intro s _; left; rfl
  | succ n ih =>
    intro s h
    rw [postDescend]
    rcases htp : tryToPushIterator check conns root s with ⟨b, s'⟩
    have hp := tryToPushIterator_anc check conns h
    rw [htp] at hp
    cases b with
    | false =>
      dsimp only
      right
      exact hp.2 rfl
    | true =>
      dsimp only
      have hl := hp.1 rfl
      rcases hti : topIteratorIsEmpty check s' with ⟨b₂, s₂⟩
      have ht := topIteratorIsEmpty_anc check hl
      rw [hti] at ht
      cases b₂ with
      | true =>
        dsimp only
        right
        exact popTopIterator_anc (ht.1 rfl)
      | false =>
        dsimp only
        exact ih s₂ (ht.2 rfl)

theorem postReturnResult_anc {root : Nat} {s : DFSState} (h : DFSAncEq root s) :
    DFSAncEq root (postReturnResult root s).2 ∧
      ∀ v, (postReturnResult root s).1 = some v →
        v.ancestors ≠ [] → v.ancestors.head? = some root := by
  rw [postReturnResult]
  dsimp only
  by_cases hc : s.current.head? = some root
  · rw [if_pos hc]
    refine ⟨h, fun v hv => ?_⟩
    rw [← Option.some.inj hv]
    exact DFSAncCore_yield h.1
  · rw [if_neg hc]
    refine ⟨h, fun v hv => ?_⟩
    rw [← Option.some.inj hv]
    exact DFSAncCore_yield h.1

theorem postReturnResult_stuck (root : Nat) (s : DFSState) :
    (postReturnResult root s).2.stuck = s.stuck := by
  rw [postReturnResult]
  dsimp only
  by_cases hc : s.current.head? = some root
  · rw [if_pos hc]
  · rw [if_neg hc]

theorem postorderNext_anc {root : Nat} {s : DFSState} (check : Bool)
    (conns : Nat → Option (List Nat)) (descentFuel : Nat) (h : DFSAncEq root s) :
    (postorderNext check conns root descentFuel s).2.stuck = true ∨
      (DFSAncEq root (postorderNext check conns root descentFuel s).2 ∧
       ∀ v, (postorderNext check conns root descentFuel s).1 = some v →
         v.ancestors ≠ [] → v.ancestors.head? = some root) := by
  rw [postorderNext]
  by_cases hf : s.finished = true
  · rw [if_pos hf]
    right
    exact ⟨h, fun v hv => by simp at hv⟩
  · rw [if_neg hf]
    rcases hti : topIteratorIsEmpty check s with ⟨b, s'⟩
    have ht := topIteratorIsEmpty_anc check h.toLoose
    rw [hti] at ht
    cases b with
    | true =>
      dsimp only
      have hE := popTopIterator_anc (ht.1 rfl)
      right
      exact ⟨(postReturnResult_anc hE).1, (postReturnResult_anc hE).2⟩
    | false =>
      dsimp only
      have hE := ht.2 rfl
      rcases postDescend_anc check conns descentFuel s' hE with hd | hd
      · left
        rw [postReturnResult_stuck]
        exact hd
      · right
        exact ⟨(postReturnResult_anc hd).1, (postReturnResult_anc hd).2⟩

theorem postorderRunAux_anc {root : Nat} (check : Bool)
    (conns : Nat → Option (List Nat)) (descentFuel : Nat) :
    ∀ (fuel : Nat) (s : DFSState), DFSAncEq root s →
      ∀ m ∈ (postorderRunAux check conns root descentFuel fuel s).1,
        m.ancestors ≠ [] → m.ancestors.head? = some root := by
  intro fuel
  induction fuel with
  | zero => intro s _ m hm; simp [postorderRunAux] at hm
  | succ n ih =>
    intro s h m hm
    rw [postorderRunAux] at hm
    rcases hnx : postorderNext check conns root descentFuel s with ⟨r, s'⟩
    have hstep := postorderNext_anc check conns descentFuel h
    rw [hnx] at hstep
    rw [hnx] at hm
    dsimp only at hm
    by_cases hstuck : s'.stuck = true
    · simp [hstuck] at hm
    · simp only [hstuck, Bool.false_eq_true, if_neg] at hm
      rcases hstep with hstep | hstep
      · exact absurd hstep hstuck
      cases r with
      | none => simp at hm
      | some v =>
        rcases hrn : postorderRunAux check conns root descentFuel n s' with ⟨out, d⟩
        rw [hrn] at hm
        rcases hm with _ | ⟨_, hm⟩
        · exact hstep.2 _ rfl
        · have := ih s' hstep.1 m
          rw [hrn] at this
          exact this hm

theorem idbfsLoop_anc {root : Nat} (check : Bool) (conns : Nat → Option (List Nat))
    (dedupe : Bool) :
    ∀ (fuel : Nat) (s : IDBFSState), DFSAncEq root s.inner →
      (idbfsLoop check conns root dedupe fuel s).2.stuck = true ∨
        (DFSAncEq root (idbfsLoop check conns root dedupe fuel s).2.inner ∧
         ∀ v, (idbfsLoop check conns root dedupe fuel s).1 = some v →
           v.ancestors ≠ [] → v.ancestors.head? = some root) := by
  intro fuel
  induction fuel with
  | zero => intro s _; left; rfl
  | succ n ih =>
    intro s h
    rw [idbfsLoop]
    rcases hnx : preorderNext check conns root s.inner with ⟨r, inner₂⟩
    have hstep := preorderNext_anc check conns h
    rw [hnx] at hstep
    dsimp only
    by_cases hstuck : inner₂.stuck = true
    · rw [if_pos hstuck]
      left
      rfl
    · rw [if_neg hstuck]
      rcases hstep with hstep | hstep
      · exact absurd hstep hstuck
      cases r with
      | none =>
        dsimp only
        by_cases hmn : s.hasMoreNodes = true
        · rw [if_pos hmn]
          apply ih
          exact ⟨⟨rfl, fun hc => absurd rfl hc, fun hc => absurd rfl hc⟩, rfl⟩
        · rw [if_neg hmn]
          right
          exact ⟨hstep.1, fun v hv => by simp at hv⟩
      | some v =>
        dsimp only
        by_cases hd : v.depth < s.currentDepth
        · rw [if_pos hd]
          exact ih _ hstep.1
        · rw [if_neg hd]
          by_cases hdup : (dedupe && decide (v.node ∈ s.visitedOuter)) = true
          · rw [if_pos hdup]
            exact ih _ hstep.1
          · rw [if_neg hdup]
            right
            refine ⟨hstep.1, fun w hw => ?_⟩
            rw [← Option.some.inj hw]
            exact hstep.2 v rfl

theorem idbfsRunAux_anc {root : Nat} (check : Bool) (conns : Nat → Option (List Nat))
    (dedupe : Bool) (loopFuel : Nat) :
    ∀ (fuel : Nat) (s : IDBFSState), DFSAncEq root s.inner →
      ∀ m ∈ (idbfsRunAux check conns root dedupe loopFuel fuel s).1,
        m.ancestors ≠ [] → m.ancestors.head? = some root := by
  intro fuel
  induction fuel with
  | zero => intro s _ m hm; simp [idbfsRunAux] at hm
  | succ n ih =>
    intro s h m hm
    rw [idbfsRunAux] at hm
    rcases hnx : idbfsNext check conns root dedupe loopFuel s with ⟨r, s'⟩
    have hstep : s'.stuck = true ∨
        (DFSAncEq root s'.inner ∧
         ∀ v, r = some v → v.ancestors ≠ [] → v.ancestors.head? = some root) := by
      rw [idbfsNext] at hnx
      by_cases hmn : s.hasMoreNodes = true
      · rw [if_pos hmn] at hnx
        have := idbfsLoop_anc check conns dedupe loopFuel s h
        rw [hnx] at this
        exact this
      · rw [if_neg hmn] at hnx
        injection hnx with hb hs
        subst hb; subst hs
        right
        exact ⟨h, fun v hv => by simp at hv⟩
    rw [hnx] at hm
    dsimp only at hm
    by_cases hstuck : s'.stuck = true
    · simp [hstuck] at hm
    · simp only [hstuck, Bool.false_eq_true, if_neg] at hm
      rcases hstep with hstep | hstep
      · exact absurd hstep hstuck
      cases r with
      | none => simp at hm
      | some v =>
        rcases hrn : idbfsRunAux check conns root dedupe loopFuel n s' with ⟨out, d⟩
        rw [hrn] at hm
        rcases hm with _ | ⟨_, hm⟩
        · exact hstep.2 _ rfl
        · have := ih s' hstep.1 m
          rw [hrn] at this
          exact this hm

theorem stackLast_shift {b : BTree} {f f₂ : InOrderFrame} {rest : List InOrderFrame}
    (hnode : f₂.node = f.node)
    (hlast : ∀ g, (f :: rest).getLast? = some g → g.node = b) :
    ∀ g, (f₂ :: rest).getLast? = some g → g.node = b := by
  intro g hg
  rcases rest with _ | ⟨e₀, r₀⟩
  · simp only [List.getLast?_singleton, Option.some.injEq] at hg
    rw [← hg, hnode]
    exact hlast f (by simp)
  · rw [getLast?_cons_ne _ (List.cons_ne_nil e₀ r₀)] at hg
    exact hlast g (by rw [getLast?_cons_ne _ (List.cons_ne_nil e₀ r₀)]; exact hg)

theorem stackLast_cons {b : BTree} {f : InOrderFrame} {rest : List InOrderFrame}
    (hne : rest ≠ [])
    (hlast : ∀ g, rest.getLast? = some g → g.node = b) :
    ∀ g, (f :: rest).getLast? = some g → g.node = b := by
  intro g hg
  rw [getLast?_cons_ne _ hne] at hg
  exact hlast g hg

/-- At any in-order state satisfying the invariant, a nonempty ancestors
array starts with the traversal root. -/
theorem InOrderAncInv_yield {b : BTree} {s : InOrderState} (h : InOrderAncInv b s) :
    s.ancestors ≠ [] → s.ancestors.head? = some b := by
  intro hne
  obtain ⟨hsync, hlast⟩ := h
  rw [hsync] at hne ⊢
  rcases hstk : s.stack with _ | ⟨f, rest⟩
  · rw [hstk] at hne
    simp at hne
  · rw [hstk] at hne
    rcases rest with _ | ⟨e₀, r₀⟩
    · simp at hne
    · show (((e₀ :: r₀).reverse).map (fun f => f.node)).head? = some b
      rw [List.head?_map, List.head?_reverse]
      rcases hq : (e₀ :: r₀).getLast? with _ | g
      · exact absurd (List.getLast?_eq_none_iff.mp hq) (List.cons_ne_nil e₀ r₀)
      · have hgb := hlast g
          (by rw [hstk, getLast?_cons_ne f (List.cons_ne_nil e₀ r₀)]; exact hq)
        simp [hgb]

theorem inOrderMoveLeft_ancInv {b : BTree} {s : InOrderState}
    (h : InOrderAncInv b s) : InOrderAncInv b (inOrderMoveLeft s).2 := by
  obtain ⟨hsync, hlast⟩ := h
  rw [inOrderMoveLeft]
  rcases hstk : s.stack with _ | ⟨f, rest⟩
  · exact ⟨hsync, hlast⟩
  · dsimp only
    have hlast' : ∀ g, (f :: rest).getLast? = some g → g.node = b :=
      fun g hg => hlast g (by rw [hstk]; exact hg)
    rcases hgl : f.node.getLeft with _ | l
    · refine ⟨?_, ?_⟩
      · show s.ancestors = (rest.reverse).map (fun f => f.node)
        rw [hsync, hstk]
        rfl
      · exact stackLast_shift (f := f) rfl hlast'
    · refine ⟨?_, ?_⟩
      · show s.ancestors ++ [f.node] =
          ((({ f with hasGoneLeft := true } : InOrderFrame) :: rest).reverse).map
            (fun f => f.node)
        rw [hsync, hstk]
        simp
      · exact stackLast_cons (List.cons_ne_nil _ _) (stackLast_shift (f := f) rfl hlast')

theorem inOrderMoveRight_ancInv {b : BTree} {s : InOrderState}
    (h : InOrderAncInv b s) : InOrderAncInv b (inOrderMoveRight s).2 := by
  obtain ⟨hsync, hlast⟩ := h
  rw [inOrderMoveRight]
  rcases hstk : s.stack with _ | ⟨f, rest⟩
  · exact ⟨hsync, hlast⟩
  · dsimp only
    have hlast' : ∀ g, (f :: rest).getLast? = some g → g.node = b :=
      fun g hg => hlast g (by rw [hstk]; exact hg)
    rcases hgr : f.node.getRight with _ | r
    · refine ⟨?_, ?_⟩
      · show s.ancestors = (rest.reverse).map (fun f => f.node)
        rw [hsync, hstk]
        rfl
      · exact stackLast_shift (f := f) rfl hlast'
    · refine ⟨?_, ?_⟩
      · show s.ancestors ++ [f.node] =
          ((({ f with hasGoneRight := true } : InOrderFrame) :: rest).reverse).map
            (fun f => f.node)
        rw [hsync, hstk]
        simp
      · exact stackLast_cons (List.cons_ne_nil _ _) (stackLast_shift (f := f) rfl hlast')

theorem inOrderLeftLoop_ancInv {b : BTree} :
    ∀ (fuel : Nat) (s : InOrderState), InOrderAncInv b s →
      InOrderAncInv b (inOrderLeftLoop fuel s).2 := by
  intro fuel
  induction fuel with
  | zero => intro s h; exact h
  | succ n ih =>
    intro s h
    rw [inOrderLeftLoop]
    rcases hstk : s.stack with _ | ⟨f, rest⟩
    · exact h
    · simp only
      by_cases hgl : f.hasGoneLeft
      · simpa [hgl] using h
      · simp only [hgl, Bool.false_eq_true, if_neg]
        rcases hmv : inOrderMoveLeft s with ⟨mv, s₂⟩
        have hs₂ : InOrderAncInv b s₂ := by
          have := inOrderMoveLeft_ancInv (b := b) (s := s) h
          rwa [hmv] at this
        cases mv with
        | false => simpa using hs₂
        | true =>
          simp only
          rcases hll : inOrderLeftLoop n s₂ with ⟨mv₂, s₃⟩
          have := ih s₂ hs₂
          rw [hll] at this
          simpa using this

theorem inOrderPopLoop_ancInv {b : BTree} :
    ∀ (fuel : Nat) (s : InOrderState), InOrderAncInv b s →
      InOrderAncInv b (inOrderPopLoop fuel s).2 := by
  intro fuel
  induction fuel with
  | zero => intro s h; exact h
  | succ n ih =>
    intro s h
    rcases hstk : s.stack with _ | ⟨⟨n₀, gl₀, gr₀⟩, rest⟩
    · rw [inOrderPopLoop, hstk]
      exact h
    · rw [inOrderPopLoop, hstk]
      cases gl₀ with
      | false => exact h
      | true =>
        cases gr₀ with
        | false => exact h
        | true =>
          obtain ⟨hsync, hlast⟩ := h
          have hrest : InOrderAncInv b
              { s with stack := rest, ancestors := s.ancestors.dropLast } := by
            refine ⟨?_, ?_⟩
            · show s.ancestors.dropLast = (rest.tail.reverse).map (fun f => f.node)
              rw [hsync, hstk]
              show (((rest.reverse).map (fun f => f.node))).dropLast = _
              rw [← List.map_dropLast, dropLast_reverse_tail]
            · intro g hg
              rcases hr : rest with _ | ⟨e₀, r₀⟩
              · rw [hr] at hg; simp at hg
              · refine hlast g ?_
                rw [hstk, hr]
                rw [getLast?_cons_ne _ (List.cons_ne_nil e₀ r₀)]
                have hg2 : rest.getLast? = some g := hg
                rw [hr] at hg2
                exact hg2
          have hres := ih _ hrest
          rcases hl : inOrderPopLoop n
              { s with stack := rest, ancestors := s.ancestors.dropLast } with ⟨mv, s₂⟩
          rw [hl] at hres
          simpa [hl] using hres

theorem inOrderNextAux_ancInv {b : BTree} :
    ∀ (fuel : Nat) (m : Bool) (s : InOrderState), InOrderAncInv b s →
      InOrderAncInv b (inOrderNextAux fuel m s).2 ∧
      (∀ y, (inOrderNextAux fuel m s).1 = some y →
        y.ancestors ≠ [] → y.ancestors.head? = some b) := by
  intro fuel
  induction fuel with
  | zero =>
    intro m s h
    refine ⟨h, ?_⟩
    intro y hy
    simp [inOrderNextAux] at hy
  | succ n ih =>
    intro m s h
    rw [inOrderNextAux]
    rcases hstk : s.stack with _ | ⟨f, rest⟩
    · exact ⟨h, fun y hy => by simp at hy⟩
    · dsimp only
      cases hfl : (f.hasGoneLeft && f.hasGoneRight) with
      | true =>
        exact ⟨h, fun y hy => by simp at hy⟩
      | false =>
        rcases hll : inOrderLeftLoop (n + 1) s with ⟨lmv, s₁⟩
        have hs₁ : InOrderAncInv b s₁ := by
          have hinv := inOrderLeftLoop_ancInv (b := b) (n + 1) s h
          rwa [hll] at hinv
        dsimp only
        cases hstuck : s₁.stuck with
        | true =>
          exact ⟨hs₁, fun y hy => by simp at hy⟩
        | false =>
          rcases hstk₁ : s₁.stack with _ | ⟨g, rest₁⟩
          · exact ⟨hs₁, fun y hy => by simp at hy⟩
          · dsimp only
            cases hyld : ((m || lmv) && !g.hasGoneRight) with
            | true =>
              refine ⟨hs₁, ?_⟩
              intro y hy
              cases hy
              exact InOrderAncInv_yield hs₁
            | false =>
              rcases hmr : (if !g.hasGoneRight then inOrderMoveRight s₁
                            else ((m || lmv), s₁)) with ⟨m₂, s₂⟩
              have hs₂ : InOrderAncInv b s₂ := by
                by_cases hgr : (!g.hasGoneRight) = true
                · rw [if_pos hgr] at hmr
                  have hinv := inOrderMoveRight_ancInv (b := b) (s := s₁) hs₁
                  rwa [hmr] at hinv
                · rw [if_neg hgr] at hmr
                  cases hmr
                  exact hs₁
              dsimp only
              rcases hpl : (if !m₂ then inOrderPopLoop (n + 1) s₂
                            else (false, s₂)) with ⟨pmv, s₃⟩
              have hs₃ : InOrderAncInv b s₃ := by
                by_cases hm₂ : (!m₂) = true
                · rw [if_pos hm₂] at hpl
                  have hinv := inOrderPopLoop_ancInv (b := b) (n + 1) s₂ hs₂
                  rwa [hpl] at hinv
                · rw [if_neg hm₂] at hpl
                  cases hpl
                  exact hs₂
              dsimp only
              cases hstuck₃ : s₃.stuck with
              | true =>
                exact ⟨hs₃, fun y hy => by simp at hy⟩
              | false =>
                exact ih (m₂ || pmv) s₃ hs₃

theorem inOrderRunAux_ancInv {b : BTree} :
    ∀ (fuel loopFuel : Nat) (s : InOrderState), InOrderAncInv b s →
      ∀ y ∈ (inOrderRunAux loopFuel fuel s).1,
        y.ancestors ≠ [] → y.ancestors.head? = some b := by
  intro fuel
  induction fuel with
  | zero => intro loopFuel s _ y hy; simp [inOrderRunAux] at hy
  | succ n ih =>
    intro loopFuel s h y hy
    rw [inOrderRunAux] at hy
    rcases hnx : inOrderNext loopFuel s with ⟨r, s₂⟩
    have hstep := inOrderNextAux_ancInv (b := b) loopFuel false s h
    rw [inOrderNext] at hnx
    rw [hnx] at hstep
    rw [inOrderNext, hnx] at hy
    by_cases hstuck : s₂.stuck
    · simp [hstuck] at hy
    · simp only [hstuck, Bool.false_eq_true, if_neg] at hy
      cases r with
      | none => simp at hy
      | some v =>
        simp only at hy
        rcases hrn : inOrderRunAux loopFuel n s₂ with ⟨out, d⟩
        rw [hrn] at hy
        rcases hy with _ | ⟨_, hy⟩
        · exact hstep.2 _ rfl
        · have := ih loopFuel s₂ hstep.1 y
          rw [hrn] at this
          exact this hy

/-- C9: for every node yielded with metadata by any traversal — depth-first
preorder and postorder (tree and graph mode), iterative-deepening
breadth-first (tree and graph mode) and binary-tree in-order — the yielded
wrapper's `depth` equals the length of its `ancestors` sequence (the `depth`
getter is literally `ancestors.length`), and whenever the depth is positive
the first element of the snapshot of `ancestors` at yield time is the
traversal root. -/
theorem c9_metadata_depth_and_root_anchored :
    (∀ (conns : Nat → Option (List Nat)) (root fuel : Nat),
      ∀ m ∈ (DFSWithMetadataRun conns root fuel).1,
        m.depth = m.ancestors.length ∧
        (0 < m.depth → m.ancestors.head? = some root)) ∧
    (∀ (adj : Nat → Option (List Nat)) (root fuel : Nat),
      ∀ m ∈ (GraphDFSWithMetadataRun adj root fuel).1,
        m.depth = m.ancestors.length ∧
        (0 < m.depth → m.ancestors.head? = some root)) ∧
    (∀ (conns : Nat → Option (List Nat)) (root fuel descentFuel : Nat),
      ∀ m ∈ (DFSPostorderWithMetadataRun conns root fuel descentFuel).1,
        m.depth = m.ancestors.length ∧
        (0 < m.depth → m.ancestors.head? = some root)) ∧
    (∀ (adj : Nat → Option (List Nat)) (root fuel descentFuel : Nat),
      ∀ m ∈ (GraphDFSPostorderWithMetadataRun adj root fuel descentFuel).1,
        m.depth = m.ancestors.length ∧
        (0 < m.depth → m.ancestors.head? = some root)) ∧
    (∀ (conns : Nat → Option (List Nat)) (root fuel loopFuel : Nat),
      ∀ m ∈ (BFSWithMetadataRun conns root fuel loopFuel).1,
        m.depth = m.ancestors.length ∧
        (0 < m.depth → m.ancestors.head? = some root)) ∧
    (∀ (adj : Nat → Option (List Nat)) (root fuel loopFuel : Nat),
      ∀ m ∈ (GraphBFSWithMetadataRun adj root fuel loopFuel).1,
        m.depth = m.ancestors.length ∧
        (0 < m.depth → m.ancestors.head? = some root)) ∧
    (∀ (b : BTree) (fuel loopFuel : Nat),
      ∀ m ∈ (DFSInOrderWithMetadataRun (some b) fuel loopFuel).1,
        m.depth = m.ancestors.length ∧
        (0 < m.depth → m.ancestors.head? = some b)) := by
  have hinit : ∀ root : Nat, DFSAncEq root initDFS :=
    fun root => ⟨⟨rfl, fun hc => absurd rfl hc, fun hc => absurd rfl hc⟩, rfl⟩
  have hinitB : ∀ root : Nat, DFSAncEq root initIDBFS.inner :=
    fun root => ⟨⟨rfl, fun hc => absurd rfl hc, fun hc => absurd rfl hc⟩, rfl⟩
  have hinitI : ∀ b : BTree, InOrderAncInv b (initInOrder b) := by
    intro b
    refine ⟨rfl, ?_⟩
    intro f hf
    simp only [initInOrder, List.getLast?_singleton, Option.some.injEq] at hf
    rw [← hf]
  refine ⟨?_, ?_, ?_, ?_, ?_, ?_, ?_⟩
  · intro conns root fuel m hm
    exact ⟨rfl, fun hd =>
      preorderRunAux_anc false conns fuel initDFS (hinit root) m hm
        (List.length_pos.mp hd)⟩
  · intro adj root fuel m hm
    exact ⟨rfl, fun hd =>
      preorderRunAux_anc true adj fuel initDFS (hinit root) m hm
        (List.length_pos.mp hd)⟩
  · intro conns root fuel descentFuel m hm
    exact ⟨rfl, fun hd =>
      postorderRunAux_anc false conns descentFuel fuel initDFS (hinit root) m hm
        (List.length_pos.mp hd)⟩
  · intro adj root fuel descentFuel m hm
    exact ⟨rfl, fun hd =>
      postorderRunAux_anc true adj descentFuel fuel initDFS (hinit root) m hm
        (List.length_pos.mp hd)⟩
  · intro conns root fuel loopFuel m hm
    exact ⟨rfl, fun hd =>
      idbfsRunAux_anc false conns false loopFuel fuel initIDBFS (hinitB root) m hm
        (List.length_pos.mp hd)⟩
  · intro adj root fuel loopFuel m hm
    exact ⟨rfl, fun hd =>
      idbfsRunAux_anc true adj true loopFuel fuel initIDBFS (hinitB root) m hm
        (List.length_pos.mp hd)⟩
  · intro b fuel loopFuel m hm
    exact ⟨rfl, fun hd =>
      inOrderRunAux_ancInv fuel loopFuel (initInOrder b) (hinitI b) m hm
        (List.length_pos.mp hd)⟩

theorem c9_witness :
    (⟨some 1, [0]⟩ : NodeWithMetadata) ∈ (DFSWithMetadataRun refChildren 0 4).1 ∧
    NodeWithMetadata.depth ⟨some 1, [0]⟩ =
      (⟨some 1, [0]⟩ : NodeWithMetadata).ancestors.length ∧
    (0 < NodeWithMetadata.depth ⟨some 1, [0]⟩ →
      (⟨some 1, [0]⟩ : NodeWithMetadata).ancestors.head? = some 0) :=
  ⟨by decide,
   (c9_metadata_depth_and_root_anchored.1 refChildren 0 4 ⟨some 1, [0]⟩ (by decide)).1,
   (c9_metadata_depth_and_root_anchored.1 refChildren 0 4 ⟨some 1, [0]⟩ (by decide)).2⟩

/-!
## C7 (amended): on functional graphs the two engines agree

The heap is not insertion-stable, so on general graphs with uniform edge cost
the pop order of equal-cost entries differs from FIFO order (see the star
counterexample).  When every node has at most one adjacent node the frontier
never holds two equal-cost entries and the orders coincide.  `ChainRel` is the
coupling invariant between the two machines' states used for the lockstep
argument. -/

theorem heapPop_one {α : Type} (sink : α → α → Bool) (a : α) :
    heapPop sink [a] = (some a, [a]) := rfl

theorem heapPop_two {α : Type} (sink : α → α → Bool) (a b : α) :
    heapPop sink [a, b] = (some a, [b]) := rfl

theorem heapPush_two (a x : DjikstraHeapNode) (h : a.totalCost ≤ x.totalCost) :
    heapPush djSink [a] x = [a, x] := by
  rw [heapPush]
  show heapifyUpAux djSink 2 [a, x] 1 = [a, x]
  rw [heapifyUpAux]
  rw [if_neg (by omega : ¬(1 = 0))]
  show (if djSink a x = true then _ else [a, x]) = [a, x]
  rw [if_neg]
  rw [djSink]
  simp only [decide_eq_true_eq]
  omega

theorem dijkstraNext_start (adj : Nat → Option (List Nat)) (r : Nat) :
    dijkstraNext adj (fun _ _ => 1) 2 (initDijkstra (some r)) =
      (some ⟨some r, []⟩,
       ⟨(match adj r with
         | none => [⟨0, ⟨some r, []⟩⟩]
         | some l =>
           (l.filter (fun a => decide (a ∉ ([r] : List Nat)))).foldl
             (fun hh a => heapPush djSink hh ⟨0 + 1, ⟨some a, some r :: []⟩⟩)
             [⟨0, ⟨some r, []⟩⟩]),
        [r], false⟩) := by
  have h1 : djSkipLoop 2 [⟨0, ⟨some r, []⟩⟩] [] =
      (some ⟨0, ⟨some r, []⟩⟩, [⟨0, ⟨some r, []⟩⟩], false) := by
    rw [djSkipLoop, heapPop_one]
    dsimp only
    rw [if_neg (List.not_mem_nil r)]
  rw [dijkstraNext]
  rw [show (initDijkstra (some r)).heap = [⟨0, ⟨some r, []⟩⟩] from rfl,
      show (initDijkstra (some r)).visited = [] from rfl, h1]
  rfl

theorem dijkstraNext_mid (adj : Nat → Option (List Nat)) (c : Int)
    (pd : List (Option Nat)) (nl m : Nat) (vis : List Nat)
    (hnl : nl ∈ vis) (hm : m ∉ vis) :
    dijkstraNext adj (fun _ _ => 1) 2
      ⟨[⟨c, ⟨some nl, pd⟩⟩, ⟨c + 1, ⟨some m, some nl :: pd⟩⟩], vis, false⟩ =
      (some ⟨some m, some nl :: pd⟩,
       ⟨(match adj m with
         | none => [⟨c + 1, ⟨some m, some nl :: pd⟩⟩]
         | some l =>
           (l.filter (fun a => decide (a ∉ vis.insert m))).foldl
             (fun hh a =>
               heapPush djSink hh ⟨c + 1 + 1, ⟨some a, some m :: some nl :: pd⟩⟩)
             [⟨c + 1, ⟨some m, some nl :: pd⟩⟩]),
        vis.insert m, false⟩) := by
  have h1 : djSkipLoop 2 [⟨c, ⟨some nl, pd⟩⟩, ⟨c + 1, ⟨some m, some nl :: pd⟩⟩] vis =
      (some ⟨c + 1, ⟨some m, some nl :: pd⟩⟩,
       [⟨c + 1, ⟨some m, some nl :: pd⟩⟩], false) := by
    rw [djSkipLoop, heapPop_two]
    dsimp only
    rw [if_pos hnl]
    rw [djSkipLoop, heapPop_one]
    dsimp only
    rw [if_neg hm]
  rw [dijkstraNext]
  rw [show (⟨[⟨c, ⟨some nl, pd⟩⟩, ⟨c + 1, ⟨some m, some nl :: pd⟩⟩], vis, false⟩ :
        DijkstraState).heap =
      [⟨c, ⟨some nl, pd⟩⟩, ⟨c + 1, ⟨some m, some nl :: pd⟩⟩] from rfl]
  rw [show (⟨[⟨c, ⟨some nl, pd⟩⟩, ⟨c + 1, ⟨some m, some nl :: pd⟩⟩], vis, false⟩ :
        DijkstraState).visited = vis from rfl]
  rw [h1]

theorem dijkstraNext_stall (adj : Nat → Option (List Nat)) (c : Int)
    (pd : List (Option Nat)) (nl : Nat) (vis : List Nat) (hnl : nl ∈ vis) :
    dijkstraNext adj (fun _ _ => 1) 2 ⟨[⟨c, ⟨some nl, pd⟩⟩], vis, false⟩ =
      (none, ⟨[⟨c, ⟨some nl, pd⟩⟩], vis, true⟩) := by
  have h1 : djSkipLoop 2 [⟨c, ⟨some nl, pd⟩⟩] vis =
      (none, [⟨c, ⟨some nl, pd⟩⟩], true) := by
    rw [djSkipLoop, heapPop_one]
    dsimp only
    rw [if_pos hnl]
    rw [djSkipLoop, heapPop_one]
    dsimp only
    rw [if_pos hnl]
    rfl
  rw [dijkstraNext]
  rw [show (⟨[⟨c, ⟨some nl, pd⟩⟩], vis, false⟩ : DijkstraState).heap =
      [⟨c, ⟨some nl, pd⟩⟩] from rfl]
  rw [show (⟨[⟨c, ⟨some nl, pd⟩⟩], vis, false⟩ : DijkstraState).visited = vis from rfl]
  rw [h1]

theorem qPullLoop_root (r : Nat) (fuel : Nat) (q₀ : List QEntry) (vis : List Nat) :
    qPullLoop true r (fuel + 1) ⟨QEntry.root false :: q₀, vis, false⟩ =
      (some ⟨r, []⟩, ⟨QEntry.root true :: q₀, vis, false⟩) := rfl

theorem qPullLoop_dead (r : Nat) (fuel : Nat) (E : QEntry) (q₀ : List QEntry)
    (vis : List Nat) (hE : E = QEntry.root true ∨ ∃ b₀, E = QEntry.kids b₀ []) :
    qPullLoop true r (fuel + 1) ⟨E :: q₀, vis, false⟩ =
      qPullLoop true r fuel ⟨q₀, vis, false⟩ := by
  rcases hE with hE | ⟨b₀, hE⟩ <;> subst hE <;> rfl

theorem qPullLoop_dead_kids (r : Nat) (fuel nl : Nat) (pq : List Nat)
    (vis : List Nat) (q₀ : List QEntry) (m : Nat) (hm : m ∈ vis) :
    qPullLoop true r (fuel + 1) ⟨QEntry.kids ⟨nl, pq⟩ [m] :: q₀, vis, false⟩ =
      qPullLoop true r fuel ⟨q₀, vis, false⟩ := by
  rw [qPullLoop]
  dsimp only [qPull]
  simp only [if_pos rfl, List.dropWhile, decide_eq_true hm]
  rfl

theorem qPullLoop_pull (r : Nat) (fuel nl : Nat) (pq : List Nat)
    (vis : List Nat) (m : Nat) (q₀ : List QEntry) (hm : m ∉ vis) :
    qPullLoop true r (fuel + 1) ⟨QEntry.kids ⟨nl, pq⟩ [m] :: q₀, vis, false⟩ =
      (some ⟨m, nl :: pq⟩,
       ⟨QEntry.kids ⟨nl, pq⟩ [] :: q₀, vis.insert nl, false⟩) := by
  rw [qPullLoop]
  dsimp only [qPull]
  simp only [if_pos rfl, List.dropWhile, decide_eq_false hm]
  rfl

theorem qPullLoop_nilq (r : Nat) (fuel : Nat) (vis : List Nat) :
    qPullLoop true r (fuel + 1) ⟨[], vis, false⟩ = (none, ⟨[], vis, false⟩) := rfl

theorem qbfsNext_start (adj : Nat → Option (List Nat)) (r : Nat) :
    qbfsNext true adj r initQBFS =
      (some ⟨r, []⟩,
       match adj r with
       | none => ⟨[QEntry.root true], [r], false⟩
       | some l => ⟨[QEntry.root true, QEntry.kids ⟨r, []⟩ l], [r], false⟩) := by
  have h1 : qPullLoop true r 2 initQBFS =
      (some ⟨r, []⟩, ⟨[QEntry.root true], [], false⟩) := rfl
  rw [qbfsNext]
  rw [show initQBFS.queue.length + 1 = 2 from rfl]
  rw [h1]
  dsimp only
  cases adj r <;> rfl

theorem qbfsNext_mid (adj : Nat → Option (List Nat)) (r nl m : Nat)
    (pq : List Nat) (vis : List Nat) (E : QEntry)
    (hE : E = QEntry.root true ∨ ∃ b₀, E = QEntry.kids b₀ [])
    (hnl : nl ∈ vis) (hm : m ∉ vis) :
    qbfsNext true adj r ⟨[E, QEntry.kids ⟨nl, pq⟩ [m]], vis, false⟩ =
      (some ⟨m, nl :: pq⟩,
       match adj m with
       | none => ⟨[QEntry.kids ⟨nl, pq⟩ []], vis.insert m, false⟩
       | some l => ⟨[QEntry.kids ⟨nl, pq⟩ [], QEntry.kids ⟨m, nl :: pq⟩ l],
                    vis.insert m, false⟩) := by
  have h1 : qPullLoop true r 3 ⟨[E, QEntry.kids ⟨nl, pq⟩ [m]], vis, false⟩ =
      (some ⟨m, nl :: pq⟩,
       ⟨[QEntry.kids ⟨nl, pq⟩ []], vis.insert nl, false⟩) := by
    rw [show (3 : Nat) = 2 + 1 from rfl]
    rw [qPullLoop_dead r 2 E _ vis hE]
    rw [show (2 : Nat) = 1 + 1 from rfl]
    rw [qPullLoop_pull r 1 nl pq vis m [] hm]
  rw [qbfsNext]
  rw [show (⟨[E, QEntry.kids ⟨nl, pq⟩ [m]], vis, false⟩ :
      QBFSState).queue.length + 1 = 3 from rfl]
  rw [h1]
  dsimp only
  rw [if_pos rfl]
  rw [List.insert_of_mem hnl]
  cases adj m <;> rfl

theorem qbfsNext_end1 (adj : Nat → Option (List Nat)) (r : Nat)
    (vis : List Nat) (E : QEntry)
    (hE : E = QEntry.root true ∨ ∃ b₀, E = QEntry.kids b₀ []) :
    qbfsNext true adj r ⟨[E], vis, false⟩ = (none, ⟨[], vis, false⟩) := by
  have h1 : qPullLoop true r 2 ⟨[E], vis, false⟩ = (none, ⟨[], vis, false⟩) := by
    rw [show (2 : Nat) = 1 + 1 from rfl]
    rw [qPullLoop_dead r 1 E [] vis hE]
    rw [show (1 : Nat) = 0 + 1 from rfl]
    rw [qPullLoop_nilq r 0 vis]
  rw [qbfsNext]
  rw [show (⟨[E], vis, false⟩ : QBFSState).queue.length + 1 = 2 from rfl]
  rw [h1]

theorem qbfsNext_end2 (adj : Nat → Option (List Nat)) (r nl : Nat)
    (pq : List Nat) (vis : List Nat) (rem : List Nat) (E : QEntry)
    (hE : E = QEntry.root true ∨ ∃ b₀, E = QEntry.kids b₀ [])
    (hdead : rem = [] ∨ ∃ m, rem = [m] ∧ m ∈ vis) :
    qbfsNext true adj r ⟨[E, QEntry.kids ⟨nl, pq⟩ rem], vis, false⟩ =
      (none, ⟨[], vis, false⟩) := by
  have h1 : qPullLoop true r 3 ⟨[E, QEntry.kids ⟨nl, pq⟩ rem], vis, false⟩ =
      (none, ⟨[], vis, false⟩) := by
    rw [show (3 : Nat) = 2 + 1 from rfl]
    rw [qPullLoop_dead r 2 E _ vis hE]
    rw [show (2 : Nat) = 1 + 1 from rfl]
    rcases hdead with hdead | ⟨m, hdead, hmv⟩ <;> subst hdead
    · rw [qPullLoop_dead r 1 (QEntry.kids ⟨nl, pq⟩ []) [] vis
        (Or.inr ⟨⟨nl, pq⟩, rfl⟩)]
      rw [show (1 : Nat) = 0 + 1 from rfl]
      rw [qPullLoop_nilq r 0 vis]
    · rw [qPullLoop_dead_kids r 1 nl pq vis [] m hmv]
      rw [show (1 : Nat) = 0 + 1 from rfl]
      rw [qPullLoop_nilq r 0 vis]
  rw [qbfsNext]
  rw [show (⟨[E, QEntry.kids ⟨nl, pq⟩ rem], vis, false⟩ :
      QBFSState).queue.length + 1 = 3 from rfl]
  rw [h1]

theorem chainRel_establish (adj : Nat → Option (List Nat)) (r : Nat)
    (hdeg : ∀ n l, adj n = some l → l.length ≤ 1)
    (c₀ : Int) (pd₀ : List (Option Nat)) (pq₀ : List Nat) (n₀ : Nat)
    (vis₀ : List Nat) (E : QEntry)
    (hE : E = QEntry.root true ∨ ∃ b₀, E = QEntry.kids b₀ [])
    (hn₀ : n₀ ∈ vis₀) :
    ChainRel adj r
      ⟨(match adj n₀ with
        | none => [⟨c₀, ⟨some n₀, pd₀⟩⟩]
        | some l =>
          (l.filter (fun a => decide (a ∉ vis₀))).foldl
            (fun hh a => heapPush djSink hh ⟨c₀ + 1, ⟨some a, some n₀ :: pd₀⟩⟩)
            [⟨c₀, ⟨some n₀, pd₀⟩⟩]),
       vis₀, false⟩
      (match adj n₀ with
       | none => ⟨[E], vis₀, false⟩
       | some l => ⟨[E, QEntry.kids ⟨n₀, pq₀⟩ l], vis₀, false⟩) := by
  rcases hadj : adj n₀ with _ | l
  · exact Or.inr ⟨c₀, pd₀, pq₀, n₀, E, vis₀, hE, rfl, rfl, hn₀, rfl, rfl,
      Or.inl ⟨hadj, rfl, rfl⟩⟩
  · have hshape : l = [] ∨ ∃ m, l = [m] := by
      rcases l with _ | ⟨m, l₂⟩
      · exact Or.inl rfl
      · rcases l₂ with _ | ⟨x, l₃⟩
        · exact Or.inr ⟨m, rfl⟩
        · have := hdeg n₀ (m :: x :: l₃) hadj
          simp at this
    rcases hshape with rfl | ⟨m, rfl⟩
    · exact Or.inr ⟨c₀, pd₀, pq₀, n₀, E, vis₀, hE, rfl, rfl, hn₀, rfl, rfl,
        Or.inr ⟨[], hadj, rfl, Or.inl ⟨rfl, rfl⟩⟩⟩
    · by_cases hmv : m ∈ vis₀
      · refine Or.inr ⟨c₀, pd₀, pq₀, n₀, E, vis₀, hE, rfl, rfl, hn₀, rfl, rfl,
          Or.inr ⟨[m], hadj, rfl, Or.inr (Or.inl ⟨m, rfl, hmv, ?_⟩)⟩⟩
        show ([m].filter (fun a => decide (a ∉ vis₀))).foldl
            (fun hh a => heapPush djSink hh ⟨c₀ + 1, ⟨some a, some n₀ :: pd₀⟩⟩)
            [⟨c₀, ⟨some n₀, pd₀⟩⟩] = [⟨c₀, ⟨some n₀, pd₀⟩⟩]
        rw [show [m].filter (fun a => decide (a ∉ vis₀)) = [] from by
          simp [List.filter, hmv]]
        rfl
      · refine Or.inr ⟨c₀, pd₀, pq₀, n₀, E, vis₀, hE, rfl, rfl, hn₀, rfl, rfl,
          Or.inr ⟨[m], hadj, rfl, Or.inr (Or.inr ⟨m, rfl, hmv, ?_⟩)⟩⟩
        show ([m].filter (fun a => decide (a ∉ vis₀))).foldl
            (fun hh a => heapPush djSink hh ⟨c₀ + 1, ⟨some a, some n₀ :: pd₀⟩⟩)
            [⟨c₀, ⟨some n₀, pd₀⟩⟩] =
          [⟨c₀, ⟨some n₀, pd₀⟩⟩, ⟨c₀ + 1, ⟨some m, some n₀ :: pd₀⟩⟩]
        rw [show [m].filter (fun a => decide (a ∉ vis₀)) = [m] from by
          simp [List.filter, hmv]]
        show heapPush djSink [⟨c₀, ⟨some n₀, pd₀⟩⟩]
            ⟨c₀ + 1, ⟨some m, some n₀ :: pd₀⟩⟩ = _
        exact heapPush_two _ _ (by show (c₀ : Int) ≤ c₀ + 1; omega)

theorem dijkstraRunAux_yield (adj : Nat → Option (List Nat)) (costFn : CostFn)
    (skipFuel n : Nat) (sd : DijkstraState) (bp : GraphNodeWithBackPath)
    (sd2 : DijkstraState)
    (hnx : dijkstraNext adj costFn skipFuel sd = (some bp, sd2))
    (hst : sd2.stuck = false) :
    dijkstraRunAux adj costFn skipFuel (n + 1) sd =
      (bp :: (dijkstraRunAux adj costFn skipFuel n sd2).1,
       (dijkstraRunAux adj costFn skipFuel n sd2).2) := by
  rw [dijkstraRunAux, hnx]
  dsimp only
  rw [hst]
  rw [if_neg Bool.false_ne_true]

theorem dijkstraRunAux_stall (adj : Nat → Option (List Nat)) (costFn : CostFn)
    (skipFuel n : Nat) (sd : DijkstraState) (rr : Option GraphNodeWithBackPath)
    (sd2 : DijkstraState)
    (hnx : dijkstraNext adj costFn skipFuel sd = (rr, sd2))
    (hst : sd2.stuck = true) :
    dijkstraRunAux adj costFn skipFuel (n + 1) sd = ([], false) := by
  rw [dijkstraRunAux, hnx]
  dsimp only
  rw [hst]
  rw [if_pos rfl]

theorem qbfsRunAux_yield (check : Bool) (adj : Nat → Option (List Nat))
    (r n : Nat) (sq : QBFSState) (bp : NodeWithBackPath) (sq2 : QBFSState)
    (hnx : qbfsNext check adj r sq = (some bp, sq2))
    (hst : sq2.stuck = false) :
    qbfsRunAux check adj r (n + 1) sq =
      (bp :: (qbfsRunAux check adj r n sq2).1,
       (qbfsRunAux check adj r n sq2).2) := by
  rw [qbfsRunAux, hnx]
  dsimp only
  rw [hst]
  rw [if_neg Bool.false_ne_true]

theorem qbfsRunAux_done (check : Bool) (adj : Nat → Option (List Nat))
    (r n : Nat) (sq : QBFSState) (sq2 : QBFSState)
    (hnx : qbfsNext check adj r sq = (none, sq2))
    (hst : sq2.stuck = false) :
    qbfsRunAux check adj r (n + 1) sq = ([], true) := by
  rw [qbfsRunAux, hnx]
  dsimp only
  rw [hst]
  rw [if_neg Bool.false_ne_true]

theorem c7_chain_run (adj : Nat → Option (List Nat)) (r : Nat)
    (hdeg : ∀ n l, adj n = some l → l.length ≤ 1) :
    ∀ (fuel : Nat) (sd : DijkstraState) (sq : QBFSState), ChainRel adj r sd sq →
      ((dijkstraRunAux adj (fun _ _ => 1) 2 fuel sd).1.map (fun bp => bp.node)) =
        ((qbfsRunAux true adj r fuel sq).1.map (fun bp => some bp.node)) := by
  intro fuel
  induction fuel with
  | zero => intro sd sq _; rfl
  | succ n ih =>
    intro sd sq hR
    rcases hR with ⟨hsd, hsq⟩ |
      ⟨c, pd, pq, nl, E, vis, hE, hdv, hqv, hnl, hds, hqs, hcase⟩
    · subst hsd; subst hsq
      have hnd := dijkstraNext_start adj r
      have hnq := qbfsNext_start adj r
      have hrel := chainRel_establish adj r hdeg 0 [] [] r [r] (QEntry.root true)
        (Or.inl rfl) (List.mem_singleton.mpr rfl)
      rcases hadj : adj r with _ | l <;>
        rw [hadj] at hnd hnq hrel <;>
        rw [dijkstraRunAux_yield adj _ 2 n _ _ _ hnd rfl] <;>
        rw [qbfsRunAux_yield true adj r n _ _ _ hnq rfl] <;>
        simp only [List.map_cons] <;>
        rw [ih _ _ hrel]
    · rcases hcase with ⟨hadj, hheap, hqueue⟩ | ⟨rem, hadj, hqueue, hsub⟩
      · have hsd2 : sd = ⟨[⟨c, ⟨some nl, pd⟩⟩], vis, false⟩ := by
          rw [show sd = (⟨sd.heap, sd.visited, sd.stuck⟩ : DijkstraState) from rfl,
              hheap, hdv, hds]
        have hsq2 : sq = ⟨[E], vis, false⟩ := by
          rw [show sq = (⟨sq.queue, sq.visited, sq.stuck⟩ : QBFSState) from rfl,
              hqueue, hqv, hqs]
        subst hsd2; subst hsq2
        rw [dijkstraRunAux_stall adj _ 2 n _ _ _
          (dijkstraNext_stall adj c pd nl vis hnl) rfl]
        rw [qbfsRunAux_done true adj r n _ _ (qbfsNext_end1 adj r vis E hE) rfl]
        rfl
      · rcases hsub with ⟨hrem, hheap⟩ | ⟨m, hrem, hmv, hheap⟩ | ⟨m, hrem, hmnv, hheap⟩
        · subst hrem
          have hsd2 : sd = ⟨[⟨c, ⟨some nl, pd⟩⟩], vis, false⟩ := by
            rw [show sd = (⟨sd.heap, sd.visited, sd.stuck⟩ : DijkstraState) from rfl,
                hheap, hdv, hds]
          have hsq2 : sq = ⟨[E, QEntry.kids ⟨nl, pq⟩ []], vis, false⟩ := by
            rw [show sq = (⟨sq.queue, sq.visited, sq.stuck⟩ : QBFSState) from rfl,
                hqueue, hqv, hqs]
          subst hsd2; subst hsq2
          rw [dijkstraRunAux_stall adj _ 2 n _ _ _
            (dijkstraNext_stall adj c pd nl vis hnl) rfl]
          rw [qbfsRunAux_done true adj r n _ _
            (qbfsNext_end2 adj r nl pq vis [] E hE (Or.inl rfl)) rfl]
          rfl
        · subst hrem
          have hsd2 : sd = ⟨[⟨c, ⟨some nl, pd⟩⟩], vis, false⟩ := by
            rw [show sd = (⟨sd.heap, sd.visited, sd.stuck⟩ : DijkstraState) from rfl,
                hheap, hdv, hds]
          have hsq2 : sq = ⟨[E, QEntry.kids ⟨nl, pq⟩ [m]], vis, false⟩ := by
            rw [show sq = (⟨sq.queue, sq.visited, sq.stuck⟩ : QBFSState) from rfl,
                hqueue, hqv, hqs]
          subst hsd2; subst hsq2
          rw [dijkstraRunAux_stall adj _ 2 n _ _ _
            (dijkstraNext_stall adj c pd nl vis hnl) rfl]
          rw [qbfsRunAux_done true adj r n _ _
            (qbfsNext_end2 adj r nl pq vis [m] E hE (Or.inr ⟨m, rfl, hmv⟩)) rfl]
          rfl
        · subst hrem
          have hsd2 : sd = ⟨[⟨c, ⟨some nl, pd⟩⟩,
              ⟨c + 1, ⟨some m, some nl :: pd⟩⟩], vis, false⟩ := by
            rw [show sd = (⟨sd.heap, sd.visited, sd.stuck⟩ : DijkstraState) from rfl,
                hheap, hdv, hds]
          have hsq2 : sq = ⟨[E, QEntry.kids ⟨nl, pq⟩ [m]], vis, false⟩ := by
            rw [show sq = (⟨sq.queue, sq.visited, sq.stuck⟩ : QBFSState) from rfl,
                hqueue, hqv, hqs]
          subst hsd2; subst hsq2
          have hnd := dijkstraNext_mid adj c pd nl m vis hnl hmnv
          have hnq := qbfsNext_mid adj r nl m pq vis E hE hnl hmnv
          have hrel := chainRel_establish adj r hdeg (c + 1) (some nl :: pd)
            (nl :: pq) m (vis.insert m) (QEntry.kids ⟨nl, pq⟩ [])
            (Or.inr ⟨⟨nl, pq⟩, rfl⟩) (List.mem_insert_self m vis)
          rcases hadjm : adj m with _ | l <;>
            rw [hadjm] at hnd hnq hrel <;>
            rw [dijkstraRunAux_yield adj _ 2 n _ _ _ hnd rfl] <;>
            rw [qbfsRunAux_yield true adj r n _ _ _ hnq rfl] <;>
            simp only [List.map_cons] <;>
            rw [ih _ _ hrel]

/-- C7 (amended): the heap is not insertion-stable, so on general graphs the
orders differ (see the counterexample); on graphs in which every node has at
most one adjacent node, the Dijkstra traversal with the uniform cost function
`1` yields exactly the same nodes in the same order as the queue-based
breadth-first traversal from the same root. -/
theorem c7_amended_uniform_cost_chain_agreement
    (adj : Nat → Option (List Nat)) (r fuel : Nat)
    (hdeg : ∀ n l, adj n = some l → l.length ≤ 1) :
    ((DjikstraRun adj (some r) (fun _ _ => 1) fuel 2).1.map (fun bp => bp.node)) =
      ((GraphBFSFastRun adj (some r) fuel).1.map some) := by
  have h := c7_chain_run adj r hdeg fuel (initDijkstra (some r)) initQBFS
    (Or.inl ⟨rfl, rfl⟩)
  rw [DjikstraRun]
  rw [GraphBFSFastRun]
  dsimp only
  rcases hq : GraphBFSFastWithMetadataRun adj r fuel with ⟨outq, dq⟩
  rw [GraphBFSFastWithMetadataRun] at hq
  rw [hq] at h
  dsimp only
  rw [h]
  rw [List.map_map]
  rfl

theorem c7_amended_witness :
    (∀ n l, oneNodeAdj n = some l → l.length ≤ 1) ∧
    ((DjikstraRun oneNodeAdj (some 0) (fun _ _ => 1) 3 2).1.map (fun bp => bp.node)) =
      ((GraphBFSFastRun oneNodeAdj (some 0) 3).1.map some) :=
  ⟨fun n l h => by cases h; decide,
   c7_amended_uniform_cost_chain_agreement oneNodeAdj 0 3
     (fun n l h => by cases h; decide)⟩

end TSCollections
